import Mathlib

/-!
# Verification of `algosdk/source_map.py`

A shallow embedding of the source-map engine of this repository:
the base-64 VLQ codec, the coarse (`SourceMap`) and fine
(`MJPSourceMap`) decoders, the `Chunk`/`FunctionalSourceMapper`
composition machinery, and the right-bound inference described by the
design document.  Python exceptions are modelled by an explicit error
type, machine integers by `Int`/`Nat` (Python integers are unbounded,
so no wrap-around modelling is needed).
-/

set_option maxHeartbeats 1000000

namespace SourceMapPy

/-- Python exceptions that the code under `src/algosdk/source_map.py`
can raise, collapsed to their Python exception class. -/
inductive PyErr where
  /-- `SourceMapVersionError` (raised by `SourceMap.__init__`). -/
  | versionError : Int → PyErr
  /-- `ValueError` (raised by `MJPSourceMap.from_json` for a bad
  version, and by iterable unpacking of an empty decoded segment). -/
  | valueError : PyErr
  /-- `IndexError` (out-of-range list subscript, e.g. `decoded_value[2]`
  or `_b64table.__getitem__` beyond position 122). -/
  | indexError : PyErr
  /-- `UnicodeEncodeError` (from `str.encode("ascii")`). -/
  | unicodeEncodeError : PyErr
  /-- `TypeError` (raised by `SourceMapping.__post_init__`). -/
  | typeError : PyErr
  /-- `AttributeError` (e.g. `None.splitlines()`). -/
  | attributeError : PyErr
  /-- `KeyError` (missing dict key). -/
  | keyError : PyErr
  /-- `AssertionError` (failed `assert` statement). -/
  | assertionError : PyErr
deriving DecidableEq, Repr

/-! ## The base-64 VLQ codec (`_base64vlq_decode` / `_base64vlq_encode`)

`_b64chars = b"ABCDEFGHIJKLMNOPQRSTUVWXYZabcdefghijklmnopqrstuvwxyz0123456789+/"`
and `_b64table` is a 123-entry table initialised to `-1` and holding the
alphabet position at each alphabet byte.  `shiftsize, flag, mask = 5, 1 << 5,
(1 << 5) - 1`. -/

def b64chars : List Char :=
  "ABCDEFGHIJKLMNOPQRSTUVWXYZabcdefghijklmnopqrstuvwxyz0123456789+/".toList

/-- `_b64table.__getitem__` for byte values `0..122` (the table's length is
`max(_b64chars) + 1 = 123`).  Each alphabet byte occurs exactly once, so the
table-filling loop stores the alphabet index of the byte, and every other
slot keeps the initial `-1`. -/
def b64table (b : Nat) : Int :=
  match b64chars.indexOf? (Char.ofNat b) with
  | some i => (i : Int)
  | none => -1

/-- `(value >> 1) * (-1 if value & 1 else 1)`: the sign/magnitude unpacking
applied when a group without continuation flag ends a value. -/
def vlqFinish (value : Nat) : Int :=
  ((value >>> 1 : Nat) : Int) * (if value &&& 1 ≠ 0 then -1 else 1)

/-- The decoding loop of `_base64vlq_decode` over the translated byte
values `v` (`-1` for a non-alphabet byte), carrying `(results, shift,
value)`.  Python's `&` on possibly negative ints is two's-complement,
which is what `Int.land` implements. -/
def vlqLoop : List Int → List Int → Nat → Nat → List Int
  | [], results, _, _ => results
  | v :: vs, results, shift, value =>
    let value' := value + ((Int.land v 31).toNat <<< shift)
    if Int.land v 32 ≠ 0 then
      vlqLoop vs results (shift + 5) value'
    else
      vlqLoop vs (results ++ [vlqFinish value']) 0 0

/-- Left-to-right effectful map, propagating the first raised exception
(the evaluation order of a Python `for`/comprehension). -/
def exceptMapM {α β : Type} (f : α → Except PyErr β) :
    List α → Except PyErr (List β)
  | [] => pure []
  | a :: as => do
    let b ← f a
    let bs ← exceptMapM f as
    pure (b :: bs)

/-- `_base64vlq_decode(vlqval)`.  `vlqval.encode("ascii")` fails on any
non-ASCII character before the loop runs; `_b64table.__getitem__` fails
with `IndexError` on byte values above 122; all other bytes translate
through the table (to `-1` when outside the alphabet). -/
def base64vlq_decode (vlqval : String) : Except PyErr (List Int) := do
  if vlqval.toList.any (fun c => 128 ≤ c.toNat) then
    throw .unicodeEncodeError
  let vs ← exceptMapM (fun c =>
    if 123 ≤ c.toNat then throw .indexError
    else pure (b64table c.toNat)) vlqval.toList
  pure (vlqLoop vs [] 0 0)

/-- The inner `while True` loop of `_base64vlq_encode`: emit 5-bit groups of
`v`, least significant first, with the continuation flag (`v and flag`) on
every group except the last. -/
def vlqEncNat (v : Nat) : List Nat :=
  let toencode := v &&& 31
  let v' := v >>> 5
  if h : v' = 0 then [toencode]
  else (toencode ||| 32) :: vlqEncNat v'
decreasing_by
  simp only [Nat.shiftRight_eq_div_pow] at *
  norm_num at *
  omega

/-- The per-integer body of `_base64vlq_encode`: pack the sign into the low
bit (`(abs(v) << 1) | int(v < 0)`), then emit the groups. -/
def vlqEncVal (v : Int) : List Nat :=
  vlqEncNat ((v.natAbs <<< 1) ||| (if v < 0 then 1 else 0))

/-- `_base64vlq_encode(*values)`: all groups mapped through the alphabet.
Every emitted group is `< 64` (proved below), so the `bytes(...)` lookup
never goes out of range; hence the plain `getD`. -/
def base64vlq_encode (values : List Int) : String :=
  String.mk ((values.flatMap vlqEncVal).map (fun n => b64chars.getD n 'A'))

/-! ## Python dict and list primitives -/

/-- First-match lookup in an insertion-ordered dict (keys are unique by
construction of `dictInsert`, so this is Python dict lookup). -/
def dictGet? {κ ν : Type} [BEq κ] : List (κ × ν) → κ → Option ν
  | [], _ => none
  | (k', v') :: rest, k => if k' == k then some v' else dictGet? rest k

/-- Python dict assignment `d[k] = v`: overwrite in place if the key is
present (keeping its position), else append. -/
def dictInsert {κ ν : Type} [BEq κ] : List (κ × ν) → κ → ν → List (κ × ν)
  | [], k, v => [(k, v)]
  | (k', v') :: rest, k, v =>
    if k' == k then (k, v) :: rest else (k', v') :: dictInsert rest k v

/-- Python list subscript `l[i]` with an `int` index: negative indices
count from the end; out of range raises `IndexError`. -/
def pyListGet {α : Type} (l : List α) (i : Int) : Except PyErr α :=
  if 0 ≤ i then
    match l[i.toNat]? with
    | some a => pure a
    | none => throw .indexError
  else
    match l[(i + l.length).toNat]? with
    | some a => if i + l.length < 0 then throw .indexError else pure a
    | none => throw .indexError

/-- Split a character list at every occurrence of `sep` (auxiliary for
`pySplit`).  The result is always non-empty. -/
def splitOnChar (sep : Char) : List Char → List (List Char)
  | [] => [[]]
  | c :: cs =>
    match splitOnChar sep cs with
    | piece :: rest =>
      if c = sep then [] :: piece :: rest else (c :: piece) :: rest
    | [] => if c = sep then [[], []] else [[c]]

/-- Python `s.split(sep)` for a one-character separator:
`"".split(sep) == [""]`, and `n` separators produce `n+1` pieces. -/
def pySplit (s : String) (sep : Char) : List String :=
  (splitOnChar sep s.toList).map String.mk

/-! ## The coarse decoder (`SourceMap`) -/

/-- `_decode_int_value(value)`: `decoded_value[2] if decoded_value else
None`, where a non-empty list of fewer than 3 integers raises
`IndexError`. -/
def _decode_int_value (value : String) : Except PyErr (Option Int) := do
  let decoded ← base64vlq_decode value
  match decoded with
  | [] => pure none
  | _ =>
    match decoded[2]? with
    | some x => pure (some x)
    | none => throw .indexError

/-- The raw `source_map` dict handed to `SourceMap.__init__` (only the
keys the constructor reads). -/
structure SourceMapInput where
  version : Int
  sources : List String
  mappings : String
deriving DecidableEq, Repr

/-- The coarse index (`SourceMap`): the two dicts built by `__init__`. -/
structure SourceMap where
  version : Int
  sources : List String
  mappings : String
  pc_to_line : List (Int × Int)
  line_to_pc : List (Int × List Int)
deriving DecidableEq, Repr

/-- The `for index, line_delta in enumerate(pc_list)` loop of
`SourceMap.__init__`. -/
def coarseLoop : List (Option Int) → Int → Int →
    List (Int × Int) → List (Int × List Int) →
    List (Int × Int) × List (Int × List Int)
  | [], _, _, p2l, l2p => (p2l, l2p)
  | line_delta :: rest, index, last_line, p2l, l2p =>
    let last_line' := match line_delta with
      | some d => last_line + d
      | none => last_line
    let l2p' := match dictGet? l2p last_line' with
      | none => dictInsert l2p last_line' [index]
      | some pcs => dictInsert l2p last_line' (pcs ++ [index])
    coarseLoop rest (index + 1) last_line' (dictInsert p2l index last_line') l2p'

/-- The cumulative `last_line` value after folding a prefix of the
decoded `pc_list` (proof-side description of the loop's counter). -/
def cumLine (last : Int) : List (Option Int) → Int
  | [] => last
  | o :: rest =>
    cumLine (match o with | some d => last + d | none => last) rest

/-- `SourceMap.__init__(source_map)`. -/
def sourceMapInit (sm : SourceMapInput) : Except PyErr SourceMap := do
  if sm.version ≠ 3 then throw (.versionError sm.version)
  let pc_list ← exceptMapM _decode_int_value (pySplit sm.mappings ';')
  let maps := coarseLoop pc_list 0 0 [] []
  pure ⟨sm.version, sm.sources, sm.mappings, maps.1, maps.2⟩

/-- `SourceMap.get_line_for_pc`. -/
def get_line_for_pc (m : SourceMap) (pc : Int) : Option Int :=
  dictGet? m.pc_to_line pc

/-- `SourceMap.get_pcs_for_line`. -/
def get_pcs_for_line (m : SourceMap) (line : Int) : Option (List Int) :=
  dictGet? m.line_to_pc line

/-! ## The fine decoder (`MJPSourceMap`) -/

/-- `str.splitlines()` restricted to `"\n"` line breaks (the only line
break occurring in this development's inputs): Python drops a final empty
piece produced by a trailing newline, and `"".splitlines() == []`. -/
def splitlines (s : String) : List String :=
  if s = "" then []
  else
    let parts := pySplit s '\n'
    if s.toList.getLast? = some '\n' then parts.dropLast else parts

/-- Python slice `s[i:]` (never raises; negative start counts from the
end, clamped at 0). -/
def pyStrDrop (s : String) (i : Int) : String :=
  if 0 ≤ i then String.mk (s.toList.drop i.toNat)
  else String.mk (s.toList.drop ((s.length : Int) + i).toNat)

/-- A `JSONSourceMap` wire record (the `TypedDict`): `none` in an optional
field models an absent key. -/
structure JSONSourceMapR where
  version : Int
  file : Option String := none
  sourceRoot : Option String := none
  sources : Option (List String) := none
  sourcesContent : Option (List (Option String)) := none
  names : Option (List String) := none
  mappings : String
deriving DecidableEq, Repr

/-- The frozen dataclass `SourceMapping` (a fine entry). -/
structure SourceMapping where
  line : Int
  column : Int
  source : Option String := none
  source_line : Option Int := none
  source_column : Option Int := none
  name : Option String := none
  source_extract : Option String := none
  target_extract : Option String := none
  source_content : Option (List String) := none
deriving DecidableEq, Repr

/-- `SourceMapping(...)` construction including `__post_init__`
validation. -/
def mkSourceMapping (line column : Int) (source : Option String)
    (source_line source_column : Option Int) (name : Option String)
    (source_extract target_extract : Option String)
    (source_content : Option (List String)) : Except PyErr SourceMapping :=
  if source ≠ none ∧ (source_line = none ∨ source_column = none) then
    throw .typeError
  else if name ≠ none ∧ source = none then
    throw .typeError
  else
    pure ⟨line, column, source, source_line, source_column, name,
      source_extract, target_extract, source_content⟩

/-- The frozen dataclass `MJPSourceMap` (without its methods). -/
structure MJPSourceMap where
  file : Option String
  source_root : Option String
  entries : List ((Int × Int) × SourceMapping)
  index : List (List Int)
deriving DecidableEq, Repr

/-- The running cumulative counters of `MJPSourceMap.from_json`
(`spos = npos = sline = scol = 0`) together with the entry table being
built. -/
structure FineState where
  spos : Int
  npos : Int
  sline : Int
  scol : Int
  entries : List ((Int × Int) × SourceMapping)
deriving DecidableEq, Repr

/-- `sp_conts[spos] if len(sp_conts) > spos else None`. -/
def sconts_get (sp_conts : List (List String)) (spos : Int) :
    Except PyErr (Option (List String)) :=
  if spos < (sp_conts.length : Int) then
    match pyListGet sp_conts spos with
    | .error e => throw e
    | .ok c => pure (some c)
  else pure none

/-- `cont[line][col:] if cont else None` (used both for the source
extract at `(sline, scol)` and the target extract at `(gline, gcol)`). -/
def extract_get (cont : Option (List String)) (line col : Int) :
    Except PyErr (Option String) :=
  match cont with
  | some c =>
    if c ≠ [] then
      match pyListGet c line with
      | .error e => throw e
      | .ok ln => pure (some (pyStrDrop ln col))
    else pure none
  | none => pure none

/-- `source_files[spos] if spos < len(source_files) else None`. -/
def source_get (source_files : List String) (spos : Int) :
    Except PyErr (Option String) :=
  if spos < (source_files.length : Int) then
    match pyListGet source_files spos with
    | .error e => throw e
    | .ok s => pure (some s)
  else pure none

/-- `if namedelta: npos += namedelta[0]; kwargs["name"] = names[npos]`
(the new `npos` together with the optional name; `names` being absent is
a `TypeError`). -/
def name_get (names? : Option (List String)) (npos : Int)
    (namedelta : List Int) : Except PyErr (Int × Option String) :=
  match namedelta with
  | [] => pure (npos, none)
  | nd :: _ =>
    match names? with
    | some ns =>
      match pyListGet ns (npos + nd) with
      | .error e => throw e
      | .ok nm => pure (npos + nd, some nm)
    | none => throw .typeError

/-- Process one decoded segment `d` of generated line `gline` (the body
of the inner `for gcd, *ref in map(_base64vlq_decode, vlqs.split(","))`
loop).  Returns the new generated column and state; the new column is
also recorded in `index[gline]` by the caller. -/
def fineSeg (names? : Option (List String)) (source_files : List String)
    (sp_conts : List (List String)) (tcont : Option (List String))
    (gline : Nat) (gcol : Int) (st : FineState) (d : List Int) :
    Except PyErr (Int × FineState) :=
  match d with
  | [] => throw .valueError
  | gcd :: sd :: sld :: scd :: namedelta =>
    -- len(ref) >= 3: the segment carries source information
    match sconts_get sp_conts (st.spos + sd) with
    | .error e => throw e
    | .ok scont =>
      match extract_get scont (st.sline + sld) (st.scol + scd) with
      | .error e => throw e
      | .ok scont_extract =>
        match extract_get tcont (gline : Int) (gcol + gcd) with
        | .error e => throw e
        | .ok tcont_extract =>
          match source_get source_files (st.spos + sd) with
          | .error e => throw e
          | .ok source =>
            match name_get names? st.npos namedelta with
            | .error e => throw e
            | .ok (npos2, name) =>
              match mkSourceMapping gline (gcol + gcd) source
                (some (st.sline + sld)) (some (st.scol + scd)) name
                scont_extract tcont_extract scont with
              | .error e => throw e
              | .ok entry =>
                pure (gcol + gcd, ⟨st.spos + sd, npos2, st.sline + sld,
                  st.scol + scd, dictInsert st.entries
                    ((gline : Int), gcol + gcd) entry⟩)
  | gcd :: _ =>
    -- len(ref) < 3: only the generated column advances
    match mkSourceMapping gline (gcol + gcd) none none none none none
      none none with
    | .error e => throw e
    | .ok entry =>
      pure (gcol + gcd, { st with
        entries := dictInsert st.entries ((gline : Int), gcol + gcd) entry })

/-- The inner loop over the comma-separated segment tokens of one
generated line, collecting `index[gline]`. -/
def fineLineLoop (names? : Option (List String)) (source_files : List String)
    (sp_conts : List (List String)) (tcont : Option (List String))
    (gline : Nat) :
    List String → Int → FineState → List Int →
    Except PyErr (FineState × List Int)
  | [], _, st, cols => pure (st, cols)
  | tok :: toks, gcol, st, cols => do
    let d ← base64vlq_decode tok
    let (gcol', st') ← fineSeg names? source_files sp_conts tcont gline gcol st d
    fineLineLoop names? source_files sp_conts tcont gline toks gcol' st'
      (cols ++ [gcol'])

/-- The outer loop of `from_json` over the `;`-separated generated lines. -/
def fineLinesLoop (names? : Option (List String)) (source_files : List String)
    (sp_conts : List (List String)) (tcont : Option (List String)) :
    List String → Nat → FineState → List (List Int) →
    Except PyErr (FineState × List (List Int))
  | [], _, st, index => pure (st, index)
  | vlqs :: rest, gline, st, index =>
    if vlqs = "" then
      fineLinesLoop names? source_files sp_conts tcont rest (gline + 1) st
        (index ++ [[]])
    else do
      let (st', cols) ← fineLineLoop names? source_files sp_conts tcont gline
        (pySplit vlqs ',') 0 st []
      fineLinesLoop names? source_files sp_conts tcont rest (gline + 1) st'
        (index ++ [cols])

/-- Truthiness of `source_files or jsource_files` operands (`None` and the
empty list are falsy). -/
def truthyOpt {α : Type} : Option (List α) → Bool
  | none => false
  | some l => !l.isEmpty

/-- `MJPSourceMap.from_json(smap, sources=[], source_files=None,
target=None)`. -/
def from_json (smap : JSONSourceMapR) (sources : List String := [])
    (source_files? : Option (List String) := none)
    (target : Option String := none) : Except PyErr MJPSourceMap := do
  if smap.version ≠ 3 then throw .valueError
  let jsource_files := smap.sources
  let source_files : List String :=
    if ¬(truthyOpt source_files? || truthyOpt jsource_files) then ["unknown"]
    else if ¬truthyOpt source_files? then jsource_files.getD []
    else source_files?.getD []
  let names? := smap.names
  let contents : List (Option String) :=
    match smap.sourcesContent with
    | some cs => cs
    | none => sources.map some
  let sp_conts : List (List String) ← exceptMapM (fun c =>
    match c with
    | some s => pure (splitlines s)
    | none => throw .attributeError) contents
  let tcont : Option (List String) :=
    match target with
    | some t => if t = "" then none else some (splitlines t)
    | none => none
  let (st, index) ← fineLinesLoop names? source_files sp_conts tcont
    (pySplit smap.mappings ';') 0 ⟨0, 0, 0, 0, []⟩ []
  pure ⟨smap.file, smap.sourceRoot, st.entries, index⟩

/-! ## Re-encoding (`MJPSourceMap.to_json`) -/

/-- `autoindex()` interning: look the key up, else assign the next
sequential id (= the number of keys assigned so far) in first-use order. -/
def intern (d : List (String × Int)) (k : String) : Int × List (String × Int) :=
  match dictGet? d k with
  | some i => (i, d)
  | none => ((d.length : Int), d ++ [(k, (d.length : Int))])

/-- The running state of `to_json`. -/
structure EncState where
  content : List (Option String)
  sources : List (String × Int)
  names : List (String × Int)
  spos : Int
  sline : Int
  scol : Int
  npos : Int
deriving DecidableEq, Repr

/-- The inner loop of `to_json` over the columns of one generated line.
`ds` is assembled as `[col - gcol]` plus, when the entry has a source, the
three deltas against the running counters (and the name delta when the
entry has a name); the counters advance by exactly those deltas. -/
def encLineLoop (entries : List ((Int × Int) × SourceMapping))
    (gline : Nat) :
    List Int → Int → EncState → List String →
    Except PyErr (EncState × List String)
  | [], _, st, mapping => pure (st, mapping)
  | col :: cols, gcol, st, mapping => do
    let entry ←
      match dictGet? entries ((gline : Int), col) with
      | some e => pure e
      | none => throw .keyError
    match entry.source with
    | none =>
      encLineLoop entries gline cols col st
        (mapping ++ [base64vlq_encode [col - gcol]])
    | some src => do
      let sl ←
        match entry.source_line with
        | some x => pure x
        | none => throw .assertionError
      let sc ←
        match entry.source_column with
        | some x => pure x
        | none => throw .assertionError
      let (sid, sources') := intern st.sources src
      let d1 := sid - st.spos
      let d2 := sl - st.sline
      let d3 := sc - st.scol
      let spos' := st.spos + d1
      let sline' := st.sline + d2
      let scol' := st.scol + d3
      let content' :=
        if spos' = (st.content.length : Int) then
          st.content ++ [match entry.source_content with
            | some c => if c ≠ [] then some (String.intercalate "\n" c) else none
            | none => none]
        else st.content
      match entry.name with
      | none =>
        encLineLoop entries gline cols col
          ⟨content', sources', st.names, spos', sline', scol', st.npos⟩
          (mapping ++ [base64vlq_encode [col - gcol, d1, d2, d3]])
      | some nm =>
        let (nid, names') := intern st.names nm
        let d4 := nid - st.npos
        encLineLoop entries gline cols col
          ⟨content', sources', names', spos', sline', scol', st.npos + d4⟩
          (mapping ++ [base64vlq_encode [col - gcol, d1, d2, d3, d4]])

/-- The outer loop of `to_json` over the generated lines of `_index`. -/
def encLinesLoop (entries : List ((Int × Int) × SourceMapping)) :
    List (List Int) → Nat → EncState → List String →
    Except PyErr (EncState × List String)
  | [], _, st, mappings => pure (st, mappings)
  | cols :: rest, gline, st, mappings => do
    let (st', mapping) ← encLineLoop entries gline cols 0 st []
    encLinesLoop entries rest (gline + 1) st'
      (mappings ++ [String.intercalate "," mapping])

/-- `MJPSourceMap.to_json()`. -/
def to_json (m : MJPSourceMap) : Except PyErr JSONSourceMapR := do
  let (st, mappings) ← encLinesLoop m.entries m.index 0 ⟨[], [], [], 0, 0, 0, 0⟩ []
  pure { version := 3,
         file := m.file,
         sourceRoot := m.source_root,
         sources := some (st.sources.map (fun p => p.1)),
         sourcesContent := some st.content,
         names := some (st.names.map (fun p => p.1)),
         mappings := String.intercalate ";" mappings }

/-! ## Lookup (`MJPSourceMap.__getitem__`) -/

/-- CPython's `bisect.bisect_right` binary search loop
(`while lo < hi: mid = (lo+hi)//2; if x < a[mid]: hi = mid else lo = mid+1`),
generic in the element comparison `ltb` (Python `<`) with an (unused for
in-range indices) default `d`. -/
def bisectLoop {α : Type} (ltb : α → α → Bool) (d : α) (a : List α)
    (x : α) (lo hi : Nat) : Nat :=
  if h : lo < hi then
    if ltb x (a.getD ((lo + hi) / 2) d) then
      bisectLoop ltb d a x lo ((lo + hi) / 2)
    else bisectLoop ltb d a x ((lo + hi) / 2 + 1) hi
  else lo
termination_by hi - lo
decreasing_by
  · omega
  · omega

/-- `bisect.bisect(cols, c)` on integers. -/
def bisect (a : List Int) (x : Int) : Nat :=
  bisectLoop (fun p q => decide (p < q)) 0 a x 0 a.length

/-- Python `<` on int pairs (lexicographic tuple comparison). -/
def pairLtB (p q : Int × Int) : Bool :=
  decide (p.1 < q.1 ∨ (p.1 = q.1 ∧ p.2 < q.2))

/-- `bisect.bisect_right(index, (line, column))` on pair keys. -/
def bisectPairs (a : List (Int × Int)) (x : Int × Int) : Nat :=
  bisectLoop pairLtB (0, 0) a x 0 a.length

/-- `MJPSourceMap.__getitem__` with a `(line, column)` tuple subscript. -/
def getitemLC (m : MJPSourceMap) (l c : Int) : Except PyErr SourceMapping :=
  match dictGet? m.entries (l, c) with
  | some e => pure e
  | none => do
    let cols ← pyListGet m.index l
    if cols = [] then throw .indexError
    else
      let cidx := bisect cols c
      -- `cols[cidx and cidx - 1]`: `0 and -1 == 0` in Python
      let j : Nat := if cidx = 0 then cidx else cidx - 1
      let col ← pyListGet cols (j : Int)
      match dictGet? m.entries (l, col) with
      | some e => pure e
      | none => throw .keyError

/-! ## Right-bound inference (modelled from the spec) -/

/-- Modelled from the spec: the next mapped column after `c` in the
line's ascending column walk (`None` when `c` is the last). -/
def nextColAfter (cols : List Int) (c : Int) : Option Int :=
  match cols.dropWhile (fun col => col ≠ c) with
  | _ :: next :: _ => some next
  | _ => none

/-- Modelled from the spec: the per-entry step of the right-bound
inference (`infer_right_bounds`, the tests' `add_right_bounds`), whose
implementation is missing from `src/algosdk/source_map.py` — only the
test suite references it.  Per §4.4 of the design document: on a
generated line with two or more mapped columns, an entry's end column
becomes the next mapped column on that line; the last entry on such a
line gets the line's full length when the target text is known
(`tlens` = its line lengths) and is left unbounded otherwise; lines with
at most one mapped column are untouched.  The optional end column is
carried next to the entry. -/
def inferRightBoundsEntry (tlens : Option (List Int))
    (index : List (List Int))
    (p : (Int × Int) × (SourceMapping × Option Int)) :
    (Int × Int) × (SourceMapping × Option Int) :=
  let cols := if 0 ≤ p.1.1 then index.getD p.1.1.toNat [] else []
  if cols.length ≤ 1 then p
  else
    match nextColAfter cols p.1.2 with
    | some c2 => (p.1, (p.2.1, some c2))
    | none =>
      match tlens with
      | some lens => (p.1, (p.2.1, some (lens.getD p.1.1.toNat 0)))
      | none => p

/-- Modelled from the spec: the right-bound inference pass over the
whole entry table. -/
def inferRightBounds (tlens : Option (List Int))
    (index : List (List Int))
    (entries : List ((Int × Int) × (SourceMapping × Option Int))) :
    List ((Int × Int) × (SourceMapping × Option Int)) :=
  entries.map (inferRightBoundsEntry tlens index)

/-! ## Chunks and the `FunctionalSourceMapper` -/

/-- The frozen dataclass `Chunk`. -/
structure Chunk where
  source_line_number : Int
  source_line : String
  source_col_bounds : Int × Int
  target_line_number : Int
  target_line : String
  target_col_bounds : Int × Int
deriving DecidableEq, Repr

/-- A placeholder chunk used only as the (never-selected) default of
in-range list reads. -/
def defaultChunk : Chunk := ⟨0, "", (0, 0), 0, "", (0, 0)⟩

/-- `Chunk.simple`: the column info spans the entire line on both sides. -/
def Chunk.simple (source_line_number : Int) (source_line : String)
    (target_line_number : Int) (target_line : String) : Chunk :=
  ⟨source_line_number, source_line, (0, (source_line.length : Int)),
   target_line_number, target_line, (0, (target_line.length : Int))⟩

/-- `FunctionalSourceMapper` (the optional `source_map` metadata field,
unused by every modelled operation, is omitted). -/
structure FunctionalSourceMapper where
  index : List (Int × Int)
  chunks : List Chunk
deriving DecidableEq, Repr

/-- `FunctionalSourceMapper.__call__(line, column)`: bisect the index and
return the chunk at the found position; `None` past the end.  (Python
checks `idx < len(self.index)` but subscripts `self.chunks`, which raises
`IndexError` if `chunks` is shorter; `from_chunks` always makes them the
same length.) -/
def fsmCall (fsm : FunctionalSourceMapper) (line column : Int) :
    Except PyErr (Option Chunk) :=
  let idx := bisectPairs fsm.index (line, column)
  if idx < fsm.index.length then
    match fsm.chunks[idx]? with
    | some ch => pure (some ch)
    | none => throw .indexError
  else pure none

/-- `indexer = [(line, chunk.source_col_bounds[1]) for line, chunk in
enumerate(chunks)]` — note `line` here is the enumeration position, not
the chunk's line number. -/
def mkIndexer (chunks : List Chunk) : List (Int × Int) :=
  chunks.enum.map (fun p => ((p.1 : Int), p.2.source_col_bounds.2))

/-- `FunctionalSourceMapper.from_chunks(chunks)` including its three
`assert` statements. -/
def from_chunks (chunks : List Chunk) :
    Except PyErr FunctionalSourceMapper := do
  let indexer := mkIndexer chunks
  if ¬(chunks.length = indexer.length) then throw .assertionError
  else if ¬(List.Chain' (fun p q => pairLtB p q = true) indexer) then
    throw .assertionError
  else
    let fsm : FunctionalSourceMapper := ⟨indexer, chunks⟩
    if ¬((List.range indexer.length).all (fun i =>
        match fsmCall fsm (indexer.getD i (0, 0)).1
          ((indexer.getD i (0, 0)).2 - 1) with
        | Except.ok (some ch) => decide (ch = chunks.getD i defaultChunk)
        | _ => false)) then
      throw .assertionError
    else pure fsm

/-- `FunctionalSourceMapper.__mul__` (`self * other`): compose the chunk
lists.  The composed chunk takes the source side from the `other` lookup
and the target line from the `self` chunk — but its target column bounds
are `schunk.source_col_bounds`, as written in the source. -/
def fsmMul (self other : FunctionalSourceMapper) :
    Except PyErr FunctionalSourceMapper := do
  let composed ← exceptMapM (fun schunk => do
    let och ← fsmCall other schunk.source_line_number
      schunk.source_col_bounds.1
    match och with
    | none => throw .assertionError
    | some ochunk =>
      pure (Chunk.mk ochunk.source_line_number ochunk.source_line
        ochunk.source_col_bounds schunk.target_line_number
        schunk.target_line schunk.source_col_bounds)) self.chunks
  from_chunks composed

/-- `FunctionalSourceMapper.generate_target`. -/
def generate_target (chunks : List Chunk) : String :=
  String.intercalate "\n" (chunks.map (fun ch => ch.target_line))

/-! ## Concrete wire records used as test inputs -/

/-- A version-3 record with one 4-field segment referencing source `"f"`,
and no `sourcesContent`. -/
def rNull : JSONSourceMapR :=
  { version := 3, sources := some ["f"], names := some [],
    mappings := "AAAA" }

/-- A version-3 record whose single generated line has mapped columns
2, 5 and 9 (`"E,G,I"` = segments `[2]`, `[3]`, `[4]`). -/
def rCols : JSONSourceMapR :=
  { version := 3, sources := some [], names := some [],
    mappings := "E,G,I" }

/-- A version-3 record whose middle group `"AAC"` decodes to the 3-integer
segment `[0, 0, 1]`. -/
def rMix : JSONSourceMapR :=
  { version := 3, sources := some [], names := some [],
    mappings := "AAAA;AAC;AAAA" }

/-- The same record as a coarse-decoder input. -/
def smMix : SourceMapInput := ⟨3, [], "AAAA;AAC;AAAA"⟩

/-- A chunk whose source column span `(0, 1)` differs from its target
column span `(0, 2)`. -/
def chSelf : Chunk := ⟨0, "AB", (0, 1), 0, "ab", (0, 2)⟩

/-- A chunk for the second compilation stage. -/
def chOther : Chunk := ⟨5, "XY", (0, 2), 0, "AB", (0, 2)⟩

/-- `from_chunks([chSelf])` (proved below). -/
def selfFsm : FunctionalSourceMapper := ⟨[(0, 1)], [chSelf]⟩

/-- `from_chunks([chOther])` (proved below). -/
def otherFsm : FunctionalSourceMapper := ⟨[(0, 2)], [chOther]⟩

/-- The fine map obtained by decoding `rCols` (proved below). -/
def mCols : MJPSourceMap :=
  { file := none, source_root := none,
    entries :=
      [((0, 2), { line := 0, column := 2 }),
       ((0, 5), { line := 0, column := 5 }),
       ((0, 9), { line := 0, column := 9 })],
    index := [[2, 5, 9]] }

/-! ## Arithmetic helper lemmas -/

theorem nat_and_31 (n : Nat) : n &&& 31 = n % 32 := by
  have h : (31 : Nat) = 2 ^ 5 - 1 := by norm_num
  rw [h, Nat.and_pow_two_sub_one_eq_mod]

theorem nat_and_32 (n : Nat) : n &&& 32 = if n / 32 % 2 = 1 then 32 else 0 := by
  have h := Nat.and_two_pow n 5
  rw [Nat.testBit_to_div_mod] at h
  norm_num at h
  by_cases hc : n / 32 % 2 = 1
  · rw [if_pos hc]
    rw [hc] at h
    simpa using h
  · rw [if_neg hc]
    simp only [hc] at h
    simpa using h

theorem nat_shr_5 (n : Nat) : n >>> 5 = n / 32 := by
  simp [Nat.shiftRight_eq_div_pow]

theorem nat_shl (n k : Nat) : n <<< k = n * 2 ^ k := by
  simp [Nat.shiftLeft_eq]

theorem nat_or_32 (d : Nat) (h : d < 32) : d ||| 32 = d + 32 := by
  interval_cases d <;> rfl

theorem nat_two_mul_or_one (a : Nat) : (2 * a) ||| 1 = 2 * a + 1 := by
  have h := Nat.lor_bit false a true 0
  simpa [Nat.bit] using h

theorem int_land_31 (m : Nat) :
    Int.land (Int.ofNat m) 31 = Int.ofNat (m &&& 31) := rfl

theorem int_land_32 (m : Nat) :
    Int.land (Int.ofNat m) 32 = Int.ofNat (m &&& 32) := rfl

/-! ## VLQ codec lemmas -/

/-- The decode loop's `results` argument is a pure accumulator. -/
theorem vlqLoop_accum (vs : List Int) (results : List Int)
    (shift value : Nat) :
    vlqLoop vs results shift value = results ++ vlqLoop vs [] shift value := by
  induction vs generalizing results shift value with
  | nil => simp [vlqLoop]
  | cons v vs ih =>
    rw [vlqLoop, vlqLoop]
    by_cases h : Int.land v 32 ≠ 0
    · rw [if_pos h, if_pos h, ih]
    · rw [if_neg h, if_neg h]
      conv_lhs => rw [ih]
      conv_rhs => rw [ih]
      simp

/-- Every group emitted by the encoder's inner loop is below 64. -/
theorem vlqEncNat_lt_64 (u : Nat) : ∀ g ∈ vlqEncNat u, g < 64 := by
  induction u using Nat.strong_induction_on with
  | _ u ih =>
    intro g hg
    rw [vlqEncNat] at hg
    by_cases h : u >>> 5 = 0
    · rw [dif_pos h] at hg
      simp only [List.mem_singleton] at hg
      subst hg
      have := nat_and_31 u
      omega
    · rw [dif_neg h] at hg
      simp only [List.mem_cons] at hg
      rcases hg with hg | hg
      · subst hg
        have h31 := nat_and_31 u
        have := nat_or_32 (u &&& 31) (by omega)
        omega
      · exact ih (u >>> 5) (by rw [nat_shr_5] at h ⊢; omega) g hg

/-- Decoding the groups that encode `u`, with `(shift, value)` pending,
produces `value + u <<< shift` and moves on. -/
theorem vlqLoop_encNat (u : Nat) (rest : List Int) (shift value : Nat) :
    vlqLoop ((vlqEncNat u).map (Int.ofNat) ++ rest) [] shift value =
      vlqFinish (value + u <<< shift) :: vlqLoop rest [] 0 0 := by
  induction u using Nat.strong_induction_on generalizing shift value with
  | _ u ih =>
    rw [vlqEncNat]
    by_cases h : u >>> 5 = 0
    · have hu : u < 32 := by rw [nat_shr_5] at h; omega
      rw [dif_pos h]
      simp only [List.map_cons, List.map_nil, List.nil_append,
        List.cons_append, vlqLoop]
      rw [int_land_31, int_land_32]
      have ha : (u &&& 31) &&& 31 = u := by
        rw [nat_and_31, nat_and_31]; omega
      have hb : (u &&& 31) &&& 32 = 0 := by
        rw [nat_and_31, nat_and_32]
        have : u % 32 / 32 = 0 := by omega
        simp [this]
      rw [ha, hb]
      rw [if_neg (by simp)]
      rw [vlqLoop_accum]
      have : (Int.ofNat u).toNat = u := rfl
      rw [this]
      simp
    · have hu : 32 ≤ u := by
        rw [nat_shr_5] at h
        by_contra hc
        push_neg at hc
        exact h (by omega)
      rw [dif_neg h]
      simp only [List.map_cons, List.cons_append, vlqLoop]
      rw [int_land_31, int_land_32]
      have h31u : u &&& 31 = u % 32 := nat_and_31 u
      have hor := nat_or_32 (u &&& 31) (by omega)
      have hg31 : ((u &&& 31) ||| 32) &&& 31 = u % 32 := by
        rw [hor, nat_and_31]; omega
      have hg32 : ((u &&& 31) ||| 32) &&& 32 = 32 := by
        rw [hor, nat_and_32, h31u]
        have : (u % 32 + 32) / 32 = 1 := by omega
        simp [this]
      rw [hg31, hg32]
      rw [if_pos (by simp)]
      have htn : (Int.ofNat (u % 32)).toNat = u % 32 := rfl
      rw [htn]
      simp only [List.append_eq]
      rw [ih (u >>> 5) (by rw [nat_shr_5] at h ⊢; omega)]
      have harith : value + (u % 32) <<< shift +
          (u >>> 5) <<< (shift + 5) = value + u <<< shift := by
        rw [nat_shl, nat_shl, nat_shr_5, nat_shl]
        have hp : (2 : Nat) ^ (shift + 5) = 2 ^ shift * 32 := by
          rw [pow_add]; norm_num
        rw [hp]
        calc value + u % 32 * 2 ^ shift + u / 32 * (2 ^ shift * 32)
            = value + (u % 32 + 32 * (u / 32)) * 2 ^ shift := by ring
          _ = value + u * 2 ^ shift := by
              rw [show u % 32 + 32 * (u / 32) = u by omega]
      rw [harith]

theorem nat_and_1 (n : Nat) : n &&& 1 = n % 2 := by
  have h : (1 : Nat) = 2 ^ 1 - 1 := by norm_num
  rw [h, Nat.and_pow_two_sub_one_eq_mod]

theorem nat_shr_1 (n : Nat) : n >>> 1 = n / 2 := by
  simp [Nat.shiftRight_eq_div_pow]

/-- Unpacking the sign-packed value recovers the original integer. -/
theorem vlqFinish_pack (v : Int) :
    vlqFinish ((v.natAbs <<< 1) ||| (if v < 0 then 1 else 0)) = v := by
  have hshl : v.natAbs <<< 1 = 2 * v.natAbs := by rw [nat_shl]; ring
  by_cases hv : v < 0
  · rw [if_pos hv, hshl, nat_two_mul_or_one, vlqFinish]
    have h1 : (2 * v.natAbs + 1) &&& 1 = 1 := by rw [nat_and_1]; omega
    have h2 : (2 * v.natAbs + 1) >>> 1 = v.natAbs := by rw [nat_shr_1]; omega
    rw [h1, h2, if_pos (by norm_num)]
    have : (v.natAbs : Int) = -v := by omega
    rw [this]
    ring
  · rw [if_neg hv, hshl, vlqFinish]
    have hor : (2 * v.natAbs) ||| 0 = 2 * v.natAbs := by simp
    rw [hor]
    have h1 : (2 * v.natAbs) &&& 1 = 0 := by rw [nat_and_1]; omega
    have h2 : (2 * v.natAbs) >>> 1 = v.natAbs := by rw [nat_shr_1]; omega
    rw [h1, h2, if_neg (by norm_num)]
    have : (v.natAbs : Int) = v := by omega
    rw [this]
    ring

/-- Decoding the concatenated encodings of a list of integers recovers
the list. -/
theorem vlqLoop_encode (values rest : List Int) :
    vlqLoop ((values.flatMap vlqEncVal).map Int.ofNat ++ rest) [] 0 0 =
      values ++ vlqLoop rest [] 0 0 := by
  induction values with
  | nil => simp
  | cons v vs ih =>
    rw [List.flatMap_cons, List.map_append, List.append_assoc]
    rw [vlqEncVal, vlqLoop_encNat]
    rw [ih]
    congr 1
    rw [Nat.zero_add, Nat.shiftLeft_zero]
    exact vlqFinish_pack v

/-- Alphabet positions below 64 are ASCII, below table size, and map back
through `_b64table` to themselves. -/
theorem b64_char_roundtrip :
    ∀ g < 64, (b64chars.getD g 'A').toNat < 123 ∧
      b64table ((b64chars.getD g 'A').toNat) = Int.ofNat g := by
  decide

/-- Translating the encoder's output characters through the byte table
recovers the groups. -/
theorem exceptMapM_b64 (gs : List Nat) (h : ∀ g ∈ gs, g < 64) :
    exceptMapM (fun c =>
      if 123 ≤ c.toNat then throw .indexError
      else pure (b64table c.toNat))
      (gs.map (fun n => b64chars.getD n 'A')) =
      Except.ok (gs.map Int.ofNat) := by
  induction gs with
  | nil => rfl
  | cons g gs ih =>
    have hg := b64_char_roundtrip g (h g (by simp))
    rw [List.map_cons, exceptMapM]
    rw [if_neg (by have := hg.1; omega)]
    rw [ih (fun g hg => h g (by simp [hg]))]
    rw [hg.2]
    rfl

theorem encode_chars_ascii (gs : List Nat) (h : ∀ g ∈ gs, g < 64) :
    (gs.map (fun n => b64chars.getD n 'A')).any
      (fun c => 128 ≤ c.toNat) = false := by
  rw [List.any_eq_false]
  intro c hc
  rw [List.mem_map] at hc
  obtain ⟨g, hg, rfl⟩ := hc
  have := (b64_char_roundtrip g (h g hg)).1
  simp only [decide_eq_true_eq, not_le]
  omega

/-- **C1.** For every finite sequence of signed integers `x1..xn`, decoding
the token produced by the VLQ encoder applied to `x1..xn` yields exactly
`[x1..xn]`; in particular `0` (and a would-be negative zero, which the
sign-packing normalizes to non-negative `0`) and negative integers
round-trip with correct sign handling. -/
theorem vlq_decode_encode_roundtrip (values : List Int) :
    base64vlq_decode (base64vlq_encode values) = Except.ok values := by
  have hlt : ∀ g ∈ values.flatMap vlqEncVal, g < 64 := by
    intro g hg
    rw [List.mem_flatMap] at hg
    obtain ⟨v, _, hgv⟩ := hg
    exact vlqEncNat_lt_64 _ g hgv
  rw [base64vlq_encode, base64vlq_decode]
  have htl : (String.mk ((values.flatMap vlqEncVal).map
      (fun n => b64chars.getD n 'A'))).toList =
      (values.flatMap vlqEncVal).map (fun n => b64chars.getD n 'A') := rfl
  rw [htl, encode_chars_ascii _ hlt]
  simp only [Bool.false_eq_true, if_false, reduceIte]
  rw [exceptMapM_b64 _ hlt]
  have := vlqLoop_encode values []
  rw [List.append_nil] at this
  simp [bind, Except.bind, this, vlqLoop]
  rfl

/-! ## Behaviour of the decoder on characters outside the alphabet -/

/-- The byte-table translation succeeds on every string whose characters
are all at most 122. -/
theorem exceptMapM_table_ok (l : List Char) (h : ∀ c ∈ l, c.toNat ≤ 122) :
    exceptMapM (fun c =>
      if 123 ≤ c.toNat then throw .indexError
      else pure (b64table c.toNat)) l =
      Except.ok (l.map (fun c => b64table c.toNat)) := by
  induction l with
  | nil => rfl
  | cons c cs ih =>
    rw [exceptMapM, if_neg (by have := h c (by simp); omega)]
    rw [ih (fun c hc => h c (by simp [hc]))]
    rfl

/-- The byte-table translation raises `IndexError` as soon as some
character exceeds 122, provided the earlier characters do not. -/
theorem exceptMapM_table_err (l : List Char) (h : ∃ c ∈ l, 123 ≤ c.toNat) :
    exceptMapM (fun c =>
      if 123 ≤ c.toNat then throw .indexError
      else pure (b64table c.toNat)) l =
      Except.error .indexError := by
  induction l with
  | nil => simp at h
  | cons c cs ih =>
    rw [exceptMapM]
    by_cases hc : 123 ≤ c.toNat
    · rw [if_pos hc]
      rfl
    · rw [if_neg hc]
      obtain ⟨d, hd, hd123⟩ := h
      rcases List.mem_cons.mp hd with rfl | hd'
      · exact absurd hd123 hc
      · rw [ih ⟨d, hd', hd123⟩]
        rfl

/-- `-1 & 31 = 31` in Python's two's-complement semantics. -/
theorem int_land_m1_31 : Int.land (-1) 31 = 31 := by
  show (Nat.ldiff 31 0 : Int) = 31
  have h : Nat.ldiff 31 0 = 31 := by
    unfold Nat.ldiff
    rw [Nat.bitwise_zero_right]
    rfl
  rw [h]
  rfl

/-- `-1 & 32 = 32` in Python's two's-complement semantics. -/
theorem int_land_m1_32 : Int.land (-1) 32 = 32 := by
  show (Nat.ldiff 32 0 : Int) = 32
  have h : Nat.ldiff 32 0 = 32 := by
    unfold Nat.ldiff
    rw [Nat.bitwise_zero_right]
    rfl
  rw [h]
  rfl

/-- **C8 counterexample.** The frozen claim says the VLQ decoder fails with
an invalid-character error whenever any character of the token lies outside
the 64-character alphabet.  `'!'` is outside the alphabet, yet
`_base64vlq_decode("!A")` succeeds and returns `[-15]`: the table value
`-1` is folded into the accumulator as a payload of 31 with the
continuation bit set, i.e. the character is silently interpreted as data. -/
theorem vlq_decode_silent_on_bang :
    base64vlq_decode "!A" = Except.ok [-15] ∧ ('!' ∈ b64chars) = False := by
  constructor
  · rw [base64vlq_decode]
    rw [if_neg (by decide)]
    have hm : exceptMapM (fun c =>
        if 123 ≤ c.toNat then throw PyErr.indexError
        else pure (b64table c.toNat)) "!A".toList =
        Except.ok [-1, Int.ofNat 0] := rfl
    rw [hm]
    show Except.ok (vlqLoop [-1, Int.ofNat 0] [] 0 0) = Except.ok [-15]
    rw [vlqLoop]
    rw [int_land_m1_31, int_land_m1_32]
    rw [if_pos (by decide)]
    rfl
  · simp only [eq_iff_iff, iff_false]
    decide

/-- **C8 (amended).** Characters with code point at least 128 make the
decoder fail with `UnicodeEncodeError`; characters with code point in
123..127 make it fail with `IndexError` (an out-of-range `_b64table`
subscript, not a dedicated invalid-character error); but every string
whose characters all have code points at most 122 — including non-alphabet
characters such as `'!'`, which are translated to the table value `-1` and
consumed as data — decodes without any error. -/
theorem vlq_decode_invalid_char_behaviour :
    (∀ s : String, (∃ c ∈ s.toList, 128 ≤ c.toNat) →
      base64vlq_decode s = Except.error PyErr.unicodeEncodeError) ∧
    (∀ s : String, (∀ c ∈ s.toList, c.toNat < 128) →
      (∃ c ∈ s.toList, 123 ≤ c.toNat) →
      base64vlq_decode s = Except.error PyErr.indexError) ∧
    (∀ s : String, (∀ c ∈ s.toList, c.toNat ≤ 122) →
      ∃ out, base64vlq_decode s = Except.ok out) := by
  refine ⟨?_, ?_, ?_⟩
  · intro s hs
    rw [base64vlq_decode]
    rw [if_pos ?_]
    · rfl
    · rw [List.any_eq_true]
      obtain ⟨c, hc, h128⟩ := hs
      exact ⟨c, hc, by simpa using h128⟩
  · intro s hall hex
    rw [base64vlq_decode]
    rw [if_neg ?_]
    · rw [exceptMapM_table_err s.toList hex]
      rfl
    · rw [List.any_eq_true]
      rintro ⟨c, hc, h128⟩
      have := hall c hc
      simp only [decide_eq_true_eq] at h128
      omega
  · intro s hall
    rw [base64vlq_decode]
    rw [if_neg ?_]
    · rw [exceptMapM_table_ok s.toList hall]
      exact ⟨_, rfl⟩
    · rw [List.any_eq_true]
      rintro ⟨c, hc, h128⟩
      have := hall c hc
      simp only [decide_eq_true_eq] at h128
      omega

/-- Witness for `vlq_decode_invalid_char_behaviour` at concrete inputs. -/
theorem vlq_decode_invalid_char_behaviour_witness :
    base64vlq_decode "é" = Except.error PyErr.unicodeEncodeError ∧
    base64vlq_decode "\x7b" = Except.error PyErr.indexError ∧
    ∃ out, base64vlq_decode "!" = Except.ok out :=
  ⟨vlq_decode_invalid_char_behaviour.1 "é" (by decide),
   vlq_decode_invalid_char_behaviour.2.1 "\x7b" (by decide) (by decide),
   vlq_decode_invalid_char_behaviour.2.2 "!" (by decide)⟩

/-! ## Error propagation through `exceptMapM` -/

/-- If every element maps to a success or to the error `e`, and at least
one maps to `e`, the whole traversal fails with `e`. -/
theorem exceptMapM_err {α β : Type} (f : α → Except PyErr β) (e : PyErr)
    (l : List α)
    (h1 : ∀ x ∈ l, (∃ b, f x = Except.ok b) ∨ f x = Except.error e)
    (h2 : ∃ x ∈ l, f x = Except.error e) :
    exceptMapM f l = Except.error e := by
  induction l with
  | nil => simp at h2
  | cons a as ih =>
    rw [exceptMapM]
    rcases h1 a (by simp) with ⟨b, hb⟩ | hb
    · obtain ⟨x, hx, hxe⟩ := h2
      rcases List.mem_cons.mp hx with rfl | hx'
      · rw [hxe] at hb
        exact absurd hb (by simp)
      · rw [hb]
        have := ih (fun x hx => h1 x (by simp [hx])) ⟨x, hx', hxe⟩
        rw [this]
        rfl
    · rw [hb]
      rfl

/-- If every element maps to a success, the traversal succeeds. -/
theorem exceptMapM_ok {α β : Type} (f : α → Except PyErr β) (l : List α)
    (h : ∀ x ∈ l, ∃ b, f x = Except.ok b) :
    ∃ bs, exceptMapM f l = Except.ok bs := by
  induction l with
  | nil => exact ⟨[], rfl⟩
  | cons a as ih =>
    obtain ⟨b, hb⟩ := h a (by simp)
    obtain ⟨bs, hbs⟩ := ih (fun x hx => h x (by simp [hx]))
    refine ⟨b :: bs, ?_⟩
    rw [exceptMapM, hb, hbs]
    rfl

/-- `_decode_int_value` succeeds on a token decoding to zero or at least
three integers. -/
theorem decode_int_value_ok (g : String) (l : List Int)
    (h : base64vlq_decode g = Except.ok l) (hlen : l = [] ∨ 3 ≤ l.length) :
    ∃ o, _decode_int_value g = Except.ok o := by
  rw [_decode_int_value, h]
  rcases hlen with rfl | hlen
  · exact ⟨none, rfl⟩
  · match l, hlen with
    | a :: b :: c :: rest, _ =>
      refine ⟨some c, ?_⟩
      simp [bind, Except.bind]
      rfl

/-- `_decode_int_value` raises `IndexError` on a token decoding to one or
two integers. -/
theorem decode_int_value_err (g : String) (l : List Int)
    (h : base64vlq_decode g = Except.ok l) (hne : l ≠ [])
    (hshort : l.length < 3) :
    _decode_int_value g = Except.error PyErr.indexError := by
  rw [_decode_int_value, h]
  match l, hne, hshort with
  | [a], _, _ => rfl
  | [a, b], _, _ => rfl

/-- **C10.** For every `source_map` dict with version 3 whose `mappings`
string contains a `;`-separated group that VLQ-decodes to a non-empty list
of fewer than 3 integers (e.g. the single-integer token `"A"`), and whose
other groups decode without a character-level error, `SourceMap.__init__`
fails with an unhandled `IndexError`: `_decode_int_value` reads
`decoded_value[2]` and guards only against the empty list. -/
theorem coarse_short_segment_index_error (sm : SourceMapInput)
    (hv : sm.version = 3)
    (hall : ∀ g ∈ pySplit sm.mappings ';', ∃ l, base64vlq_decode g = Except.ok l)
    (hshort : ∃ g ∈ pySplit sm.mappings ';',
      ∃ l, base64vlq_decode g = Except.ok l ∧ l ≠ [] ∧ l.length < 3) :
    sourceMapInit sm = Except.error PyErr.indexError := by
  unfold sourceMapInit
  rw [if_neg (by simp [hv])]
  have herr : exceptMapM _decode_int_value (pySplit sm.mappings ';') =
      Except.error PyErr.indexError := by
    apply exceptMapM_err
    · intro g hg
      obtain ⟨l, hl⟩ := hall g hg
      by_cases hcase : l = [] ∨ 3 ≤ l.length
      · exact Or.inl (decode_int_value_ok g l hl hcase)
      · push_neg at hcase
        exact Or.inr (decode_int_value_err g l hl hcase.1 hcase.2)
    · obtain ⟨g, hg, l, hl, hne, hshort⟩ := hshort
      exact ⟨g, hg, decode_int_value_err g l hl hne hshort⟩
  rw [herr]
  rfl

/-- Witness for `coarse_short_segment_index_error` on the mappings string
`"A"`. -/
theorem coarse_short_segment_index_error_witness :
    sourceMapInit ⟨3, [], "A"⟩ = Except.error PyErr.indexError :=
  coarse_short_segment_index_error ⟨3, [], "A"⟩ rfl
    (by
      intro g hg
      have : g = "A" := by
        have : pySplit "A" ';' = ["A"] := rfl
        rw [show (⟨3, [], "A"⟩ : SourceMapInput).mappings = "A" from rfl,
          this] at hg
        simpa using hg
      subst this
      exact ⟨[0], rfl⟩)
    ⟨"A", by
      have : pySplit "A" ';' = ["A"] := rfl
      rw [show (⟨3, [], "A"⟩ : SourceMapInput).mappings = "A" from rfl, this]
      simp, [0], rfl, by simp, by simp⟩

/-- **C9.** Both decoders reject a wire record whose version field is not 3
(`SourceMap.__init__` with `SourceMapVersionError`, `MJPSourceMap.from_json`
with `ValueError`), whatever the `mappings` string contains — i.e. before
any segment parsing occurs. -/
theorem version_rejected (smc : SourceMapInput) (smf : JSONSourceMapR)
    (sources : List String) (sf? : Option (List String))
    (target : Option String)
    (hc : smc.version ≠ 3) (hf : smf.version ≠ 3) :
    sourceMapInit smc = Except.error (PyErr.versionError smc.version) ∧
    from_json smf sources sf? target = Except.error PyErr.valueError := by
  constructor
  · unfold sourceMapInit
    rw [if_pos hc]
    rfl
  · unfold from_json
    rw [if_pos hf]
    rfl

/-! ## `bisect.bisect` on a sorted list -/

theorem takeWhile_getD_sat {α : Type} (p : α → Bool) (d : α) (l : List α) :
    ∀ i, i < (l.takeWhile p).length → p (l.getD i d) = true := by
  induction l with
  | nil => simp
  | cons a t ih =>
    intro i hi
    by_cases hp : p a
    · rw [List.takeWhile_cons_of_pos hp] at hi
      match i with
      | 0 => simpa using hp
      | i + 1 =>
        simp only [List.length_cons, Nat.add_lt_add_iff_right] at hi
        simpa using ih i hi
    · rw [List.takeWhile_cons_of_neg hp] at hi
      simp at hi

theorem takeWhile_getD_boundary {α : Type} (p : α → Bool) (d : α)
    (l : List α) (h : (l.takeWhile p).length < l.length) :
    p (l.getD (l.takeWhile p).length d) = false := by
  induction l with
  | nil => simp at h
  | cons a t ih =>
    by_cases hp : p a
    · rw [List.takeWhile_cons_of_pos hp] at h ⊢
      simp only [List.length_cons, Nat.add_lt_add_iff_right] at h
      simpa using ih h
    · rw [List.takeWhile_cons_of_neg hp] at h ⊢
      simpa using hp

theorem takeWhile_length_le {α : Type} (p : α → Bool) (l : List α) :
    (l.takeWhile p).length ≤ l.length := by
  induction l with
  | nil => simp
  | cons a t ih =>
    by_cases hp : p a
    · rw [List.takeWhile_cons_of_pos hp]
      simpa using ih
    · rw [List.takeWhile_cons_of_neg hp]
      simp

theorem pairwise_getD_le (a : List Int) (hpair : a.Pairwise (· ≤ ·))
    (i j : Nat) (hij : i ≤ j) (hj : j < a.length) :
    a.getD i 0 ≤ a.getD j 0 := by
  rcases Nat.lt_or_ge i j with hlt | hge
  · have hi : i < a.length := by omega
    rw [List.getD_eq_getElem a 0 hi, List.getD_eq_getElem a 0 hj]
    exact List.pairwise_iff_getElem.mp hpair i j hi hj hlt
  · have : i = j := by omega
    rw [this]

/-- When the predicate `fun y => ltb x y` is upward closed along the list
(as it is on any list sorted for the corresponding order), the binary
search returns the length of the prefix on which it fails — the number of
elements not greater than `x`. -/
theorem bisectLoop_mono {α : Type} (ltb : α → α → Bool) (d : α)
    (a : List α) (x : α)
    (hmono : ∀ i j, i ≤ j → j < a.length →
      ltb x (a.getD i d) = true → ltb x (a.getD j d) = true) :
    ∀ (n lo hi : Nat), hi - lo ≤ n →
      lo ≤ (a.takeWhile (fun y => !(ltb x y))).length →
      (a.takeWhile (fun y => !(ltb x y))).length ≤ hi → hi ≤ a.length →
      bisectLoop ltb d a x lo hi =
        (a.takeWhile (fun y => !(ltb x y))).length := by
  intro n
  induction n with
  | zero =>
    intro lo hi h1 h2 h3 _
    rw [bisectLoop, dif_neg (by omega)]
    omega
  | succ n ih =>
    intro lo hi h1 h2 h3 h4
    by_cases hlh : lo < hi
    · rw [bisectLoop, dif_pos hlh]
      by_cases hx : ltb x (a.getD ((lo + hi) / 2) d) = true
      · rw [if_pos hx]
        have hmk : (a.takeWhile (fun y => !(ltb x y))).length ≤
            (lo + hi) / 2 := by
          by_contra hc
          push_neg at hc
          have hsat := takeWhile_getD_sat (fun y => !(ltb x y)) d a
            ((lo + hi) / 2) hc
          simp only [Bool.not_eq_eq_eq_not, Bool.not_true] at hsat
          rw [hx] at hsat
          exact absurd hsat (by simp)
        exact ih lo ((lo + hi) / 2) (by omega) h2 hmk (by omega)
      · rw [if_neg hx]
        have hkm : (lo + hi) / 2 <
            (a.takeWhile (fun y => !(ltb x y))).length := by
          by_contra hc
          push_neg at hc
          have hkl : (a.takeWhile (fun y => !(ltb x y))).length < a.length := by
            omega
          have hb := takeWhile_getD_boundary (fun y => !(ltb x y)) d a hkl
          have hb' : ltb x (a.getD (a.takeWhile
              (fun y => !(ltb x y))).length d) = true := by
            simpa using hb
          have := hmono (a.takeWhile (fun y => !(ltb x y))).length
            ((lo + hi) / 2) hc (by omega) hb'
          exact hx this
        exact ih ((lo + hi) / 2 + 1) hi (by omega) (by omega) h3 h4
    · rw [bisectLoop, dif_neg hlh]
      omega

/-- `bisect.bisect(a, x)` on a `≤`-sorted list is the number of elements
at most `x`. -/
theorem bisect_sorted (a : List Int) (x : Int)
    (hpair : a.Pairwise (· ≤ ·)) :
    bisect a x = (a.takeWhile (fun y => y ≤ x)).length := by
  rw [bisect]
  have hfun : (fun y : Int => decide (y ≤ x)) =
      (fun y : Int => !(decide (x < y))) := by
    funext y
    by_cases h : y ≤ x
    · simp [h, not_lt.mpr h]
    · simp [h, lt_of_not_le h]
  rw [show (a.takeWhile (fun y => y ≤ x)) =
      (a.takeWhile (fun y => !(decide (x < y)))) from by rw [← hfun]]
  apply bisectLoop_mono (fun p q => decide (p < q)) 0 a x
    ?_ a.length 0 a.length (by omega) (by omega)
    (takeWhile_length_le _ _) (by omega)
  intro i j hij hj hi
  simp only [decide_eq_true_eq] at hi ⊢
  have := pairwise_getD_le a hpair i j hij hj
  omega

/-! ## Lookup lemmas (`__getitem__`) -/

/-- `pyListGet` on an in-range non-negative index. -/
theorem pyListGet_nonneg {α : Type} (l : List α) (i : Int) (a : α)
    (hi : 0 ≤ i) (h : l[i.toNat]? = some a) :
    pyListGet l i = Except.ok a := by
  rw [pyListGet, if_pos hi, h]
  rfl

/-- **C3 (amended).** `__getitem__` lookup on a line that is present in
the index, with its column list sorted and consistent with the entry
table: an exact key hit returns that entry; a line with no mapped columns
raises `IndexError`; on a miss with some mapped column `≤ column`, the
entry at the greatest such column is returned; but on a miss *below the
minimum mapped column*, the entry at the line's **first** mapped column is
returned (`cols[cidx and cidx - 1]` clamps to 0) — not a not-found
error, contrary to the claim. -/
theorem getitem_nearest_column (m : MJPSourceMap) (l c : Int)
    (hl : 0 ≤ l) (hlen : l.toNat < m.index.length)
    (hsorted : (m.index.getD l.toNat []).Pairwise (· ≤ ·))
    (hcols : ∀ col ∈ m.index.getD l.toNat [],
      ∃ e, dictGet? m.entries (l, col) = some e) :
    (∀ e, dictGet? m.entries (l, c) = some e →
      getitemLC m l c = Except.ok e) ∧
    (dictGet? m.entries (l, c) = none → m.index.getD l.toNat [] = [] →
      getitemLC m l c = Except.error PyErr.indexError) ∧
    (dictGet? m.entries (l, c) = none →
      ∀ col0 ∈ m.index.getD l.toNat [], col0 ≤ c →
      ∃ col e, col ∈ m.index.getD l.toNat [] ∧ col ≤ c ∧
        (∀ col' ∈ m.index.getD l.toNat [], col' ≤ c → col' ≤ col) ∧
        dictGet? m.entries (l, col) = some e ∧
        getitemLC m l c = Except.ok e) ∧
    (dictGet? m.entries (l, c) = none →
      (∀ col ∈ m.index.getD l.toNat [], c < col) →
      ∀ col0, (m.index.getD l.toNat []).head? = some col0 →
      ∃ e, dictGet? m.entries (l, col0) = some e ∧
        getitemLC m l c = Except.ok e) := by
  have hplEq : pyListGet m.index l = Except.ok (m.index.getD l.toNat []) := by
    apply pyListGet_nonneg _ _ _ hl
    rw [List.getElem?_eq_getElem hlen, List.getD_eq_getElem _ _ hlen]
  refine ⟨?_, ?_, ?_, ?_⟩
  · intro e he
    unfold getitemLC
    rw [he]
    rfl
  · intro hm hnil
    unfold getitemLC
    rw [hm, hplEq, hnil]
    simp [bind, Except.bind]
    rfl
  · intro hm col0 hmem0 hle0
    obtain ⟨i0, hi0, hEq0⟩ := List.mem_iff_getElem.mp hmem0
    have hbis := bisect_sorted (m.index.getD l.toNat []) c hsorted
    have hlenk := takeWhile_length_le (fun y => y ≤ c) (m.index.getD l.toNat [])
    have hkpos : 0 < ((m.index.getD l.toNat []).takeWhile
        (fun y => y ≤ c)).length := by
      by_contra hk0
      push_neg at hk0
      have hb := takeWhile_getD_boundary (fun y => y ≤ c) 0
        (m.index.getD l.toNat []) (by omega)
      simp only [decide_eq_false_iff_not, not_le] at hb
      have hle := pairwise_getD_le _ hsorted
        ((m.index.getD l.toNat []).takeWhile (fun y => y ≤ c)).length i0
        (by omega) hi0
      rw [List.getD_eq_getElem _ 0 hi0, hEq0] at hle
      omega
    set k := ((m.index.getD l.toNat []).takeWhile (fun y => y ≤ c)).length
      with hkdef
    have hkm1 : k - 1 < (m.index.getD l.toNat []).length := by omega
    refine ⟨(m.index.getD l.toNat []).getD (k - 1) 0, ?_⟩
    have hmemk : (m.index.getD l.toNat []).getD (k - 1) 0 ∈
        m.index.getD l.toNat [] := by
      rw [List.getD_eq_getElem _ 0 hkm1]
      exact List.getElem_mem _
    obtain ⟨e, he⟩ := hcols _ hmemk
    refine ⟨e, hmemk, ?_, ?_, he, ?_⟩
    · have := takeWhile_getD_sat (fun y => y ≤ c) 0
        (m.index.getD l.toNat []) (k - 1) (by omega)
      simpa using this
    · intro col' hmem' hle'
      obtain ⟨i', hi', hEq'⟩ := List.mem_iff_getElem.mp hmem'
      have hik : i' < k := by
        by_contra hik
        push_neg at hik
        have hb := takeWhile_getD_boundary (fun y => y ≤ c) 0
          (m.index.getD l.toNat []) (by omega)
        simp only [decide_eq_false_iff_not, not_le] at hb
        rw [← hkdef] at hb
        have hle2 := pairwise_getD_le _ hsorted k i' hik hi'
        rw [List.getD_eq_getElem _ 0 hi', hEq'] at hle2
        omega
      have := pairwise_getD_le _ hsorted i' (k - 1) (by omega) hkm1
      rw [List.getD_eq_getElem _ 0 hi', hEq'] at this
      exact this
    · unfold getitemLC
      rw [hm, hplEq]
      simp only [bind, Except.bind]
      rw [if_neg (by intro hnil; rw [hnil] at hi0; simp at hi0)]
      rw [hbis, if_neg (by omega)]
      have hpl2 : pyListGet (m.index.getD l.toNat []) ((k - 1 : Nat) : Int) =
          Except.ok ((m.index.getD l.toNat []).getD (k - 1) 0) := by
        apply pyListGet_nonneg _ _ _ (by omega)
        rw [Int.toNat_natCast]
        rw [List.getElem?_eq_getElem hkm1, List.getD_eq_getElem _ 0 hkm1]
      rw [hpl2]
      simp only [bind, Except.bind]
      rw [he]
      rfl
  · intro hm hall col0 hhead
    have hbis := bisect_sorted (m.index.getD l.toNat []) c hsorted
    have hne : m.index.getD l.toNat [] ≠ [] := by
      intro hnil
      rw [hnil] at hhead
      simp at hhead
    have hk0 : ((m.index.getD l.toNat []).takeWhile
        (fun y => y ≤ c)).length = 0 := by
      by_contra hk
      have := takeWhile_getD_sat (fun y => y ≤ c) 0
        (m.index.getD l.toNat []) 0 (by omega)
      simp only [decide_eq_true_eq] at this
      have hlenk := takeWhile_length_le (fun y => y ≤ c)
        (m.index.getD l.toNat [])
      have hmem : (m.index.getD l.toNat []).getD 0 0 ∈
          m.index.getD l.toNat [] := by
        have h0 : 0 < (m.index.getD l.toNat []).length := by
          cases hcl : m.index.getD l.toNat [] with
          | nil => exact absurd hcl hne
          | cons a t => simp
        rw [List.getD_eq_getElem _ 0 h0]
        exact List.getElem_mem _
      have := hall _ hmem
      omega
    have hcol0 : (m.index.getD l.toNat []).getD 0 0 = col0 := by
      cases hcl : m.index.getD l.toNat [] with
      | nil => exact absurd hcl hne
      | cons a t =>
        rw [hcl] at hhead
        simp only [List.head?_cons, Option.some.injEq] at hhead
        simp [hhead]
    have hmem0 : col0 ∈ m.index.getD l.toNat [] := by
      rw [← hcol0]
      have h0 : 0 < (m.index.getD l.toNat []).length := by
        cases hcl : m.index.getD l.toNat [] with
        | nil => exact absurd hcl hne
        | cons a t => simp
      rw [List.getD_eq_getElem _ 0 h0]
      exact List.getElem_mem _
    obtain ⟨e, he⟩ := hcols _ hmem0
    refine ⟨e, he, ?_⟩
    have hbis0 : bisect (m.index.getD l.toNat []) c = 0 := hbis.trans hk0
    unfold getitemLC
    rw [hm, hplEq]
    simp only [bind, Except.bind]
    rw [if_neg hne]
    rw [hbis0]
    norm_num
    have hpl2 : pyListGet (m.index.getD l.toNat []) ((0 : Nat) : Int) =
        Except.ok col0 := by
      apply pyListGet_nonneg _ _ _ (by omega)
      have h0 : 0 < (m.index.getD l.toNat []).length := by
        cases hcl : m.index.getD l.toNat [] with
        | nil => exact absurd hcl hne
        | cons a t => simp
      rw [Int.toNat_natCast]
      rw [List.getElem?_eq_getElem h0, ← hcol0, List.getD_eq_getElem _ 0 h0]
    rw [show ((0 : Nat) : Int) = 0 from rfl] at hpl2
    have hgd : (m.index[l.toNat]?.getD [] : List Int) =
        m.index.getD l.toNat [] :=
      Eq.symm (List.getD_eq_getElem?_getD m.index l.toNat [])
    rw [hgd, hpl2]
    simp only [bind, Except.bind]
    rw [he]
    rfl

/-- **C3 counterexample.** The frozen claim says that when no mapped
column `≤ column` exists on the line, lookup fails with a not-found
error.  On the map decoded from `rCols` (mapped columns 2, 5, 9 on
generated line 0), the query `(0, 1)` lies below the minimum mapped
column — yet `__getitem__` returns the entry at column 2 instead of
raising: `bisect` returns 0 and `cidx and cidx - 1` evaluates to index 0. -/
theorem lookup_below_min_returns_first :
    from_json rCols [] none none = Except.ok mCols ∧
    mCols.index = [[2, 5, 9]] ∧
    getitemLC mCols 0 1 = Except.ok { line := 0, column := 2 } := by
  refine ⟨rfl, rfl, ?_⟩
  have hb : bisect [2, 5, 9] 1 = 0 :=
    (bisect_sorted [2, 5, 9] 1 (by decide)).trans rfl
  unfold getitemLC
  rw [show dictGet? mCols.entries (0, 1) = none from rfl]
  rw [show pyListGet mCols.index 0 = Except.ok [2, 5, 9] from rfl]
  simp only [bind, Except.bind]
  rw [if_neg (by decide)]
  rw [hb]
  rfl

/-- Witness for `getitem_nearest_column`: on `mCols` (columns 2, 5, 9),
the miss query `(0, 7)` returns the entry at the greatest mapped column
`≤ 7`, namely 5. -/
theorem getitem_nearest_column_witness :
    ∃ col e, col ∈ mCols.index.getD (0 : Int).toNat [] ∧ col ≤ 7 ∧
      (∀ col' ∈ mCols.index.getD (0 : Int).toNat [], col' ≤ 7 → col' ≤ col) ∧
      dictGet? mCols.entries (0, col) = some e ∧
      getitemLC mCols 0 7 = Except.ok e :=
  (getitem_nearest_column mCols 0 7 (by decide) (by decide) (by decide)
    (by
      intro col hc
      have : col = 2 ∨ col = 5 ∨ col = 9 := by
        have h : mCols.index.getD (0 : Int).toNat [] = [2, 5, 9] := rfl
        rw [h] at hc
        simpa using hc
      rcases this with rfl | rfl | rfl
      · exact ⟨_, rfl⟩
      · exact ⟨_, rfl⟩
      · exact ⟨_, rfl⟩)).2.2.1
    (by decide) 5 (by decide) (by decide)

/-! ## `from_chunks` and composition -/

/-- If `p` holds on the first `k` positions and fails at position `k`,
the `takeWhile` prefix has length exactly `k`. -/
theorem takeWhile_length_eq_of {α : Type} (p : α → Bool) (d : α) :
    ∀ (a : List α) (k : Nat), k ≤ a.length →
      (∀ j, j < k → p (a.getD j d) = true) →
      (k < a.length → p (a.getD k d) = false) →
      (a.takeWhile p).length = k := by
  intro a
  induction a with
  | nil =>
    intro k hk _ _
    simp at hk
    simp [hk]
  | cons b t ih =>
    intro k hk hsat hfail
    match k with
    | 0 =>
      have hb := hfail (by simp)
      simp only [List.getD] at hb
      simp at hb
      rw [List.takeWhile_cons_of_neg (by simp [hb])]
      rfl
    | k + 1 =>
      have hb := hsat 0 (by omega)
      simp only [List.getD] at hb
      simp at hb
      rw [List.takeWhile_cons_of_pos (by simp [hb])]
      simp only [List.length_cons, Nat.add_right_cancel_iff]
      apply ih k (by simpa using hk)
      · intro j hj
        have := hsat (j + 1) (by omega)
        simpa using this
      · intro hlt
        have := hfail (by simpa using hlt)
        simpa using this

theorem mkIndexer_length (chunks : List Chunk) :
    (mkIndexer chunks).length = chunks.length := by
  simp [mkIndexer]

theorem mkIndexer_getD (chunks : List Chunk) (i : Nat)
    (hi : i < chunks.length) :
    (mkIndexer chunks).getD i (0, 0) =
      ((i : Int), (chunks.getD i defaultChunk).source_col_bounds.2) := by
  have hlen : i < (mkIndexer chunks).length := by
    rw [mkIndexer_length]
    exact hi
  rw [List.getD_eq_getElem _ _ hlen, List.getD_eq_getElem _ _ hi]
  simp only [mkIndexer, List.getElem_map]
  rw [List.getElem_enum]

/-- On the indexer, bisecting at `(i, end_i - 1)` lands exactly on
position `i`: the first components `0, 1, 2, …` are strictly
increasing, and `end_i - 1 < end_i`. -/
theorem bisectPairs_indexer (chunks : List Chunk) (i : Nat)
    (hi : i < chunks.length) :
    bisectPairs (mkIndexer chunks)
      ((i : Int), (chunks.getD i defaultChunk).source_col_bounds.2 - 1) = i := by
  rw [bisectPairs]
  have hlen := mkIndexer_length chunks
  have htw : ((mkIndexer chunks).takeWhile (fun y =>
      !(pairLtB ((i : Int),
        (chunks.getD i defaultChunk).source_col_bounds.2 - 1) y))).length = i := by
    apply takeWhile_length_eq_of _ (0, 0) _ i (by omega)
    · intro j hj
      rw [mkIndexer_getD chunks j (by omega)]
      simp [pairLtB]
      omega
    · intro _
      rw [mkIndexer_getD chunks i hi]
      simp [pairLtB]
  conv_rhs => rw [← htw]
  apply bisectLoop_mono pairLtB (0, 0) (mkIndexer chunks) _ ?hmono
    (mkIndexer chunks).length 0 (mkIndexer chunks).length
    (by omega) (by rw [htw]; omega) (by rw [htw]; omega) (by omega)
  case hmono =>
    intro j j' hjj hj' hP
    rcases Nat.eq_or_lt_of_le hjj with rfl | hlt
    · exact hP
    · rw [mkIndexer_getD chunks j' (by omega)]
      rw [mkIndexer_getD chunks j (by omega)] at hP
      simp only [pairLtB, decide_eq_true_eq] at hP ⊢
      omega

/-- `from_chunks` never fails: its indexer pairs strictly increase in the
first component, and the self-check lookup at `(i, end_i - 1)` always
returns chunk `i`. -/
theorem from_chunks_ok (chunks : List Chunk) :
    from_chunks chunks = Except.ok ⟨mkIndexer chunks, chunks⟩ := by
  rw [from_chunks]
  rw [if_neg (by simp [mkIndexer_length])]
  rw [if_neg ?hchain]
  case hchain =>
    simp only [not_not]
    rw [List.chain'_iff_get]
    intro j hj
    have hlen := mkIndexer_length chunks
    have hj1 : j < (mkIndexer chunks).length := by omega
    have hj2 : j + 1 < (mkIndexer chunks).length := by omega
    rw [List.get_eq_getElem, List.get_eq_getElem]
    rw [← List.getD_eq_getElem _ (0, 0) hj1, ← List.getD_eq_getElem _ (0, 0) hj2]
    rw [mkIndexer_getD chunks j (by omega), mkIndexer_getD chunks (j + 1) (by omega)]
    simp only [pairLtB, decide_eq_true_eq]
    left
    exact_mod_cast by omega
  rw [if_neg ?hcheck]
  case hcheck =>
    simp only [not_not]
    rw [List.all_eq_true]
    intro i hi
    rw [List.mem_range] at hi
    have hlen := mkIndexer_length chunks
    rw [mkIndexer_getD chunks i (by omega)]
    simp only [fsmCall]
    rw [bisectPairs_indexer chunks i (by omega)]
    rw [if_pos (by omega)]
    rw [List.getElem?_eq_getElem (by omega : i < chunks.length)]
    rw [List.getD_eq_getElem _ defaultChunk (by omega : i < chunks.length)]
    show decide (chunks[i] = chunks[i]) = true
    simp
  rfl

/-- Pointwise description of a successful `exceptMapM`. -/
theorem exceptMapM_ok_pointwise {α β : Type} (f : α → Except PyErr β)
    (dA : α) (dB : β) :
    ∀ (l : List α), (∀ a ∈ l, ∃ b, f a = Except.ok b) →
      ∃ bs, exceptMapM f l = Except.ok bs ∧ bs.length = l.length ∧
        ∀ i, i < l.length → f (l.getD i dA) = Except.ok (bs.getD i dB) := by
  intro l
  induction l with
  | nil =>
    intro _
    exact ⟨[], rfl, rfl, by intro i hi; simp at hi⟩
  | cons a as ih =>
    intro h
    obtain ⟨b, hb⟩ := h a (by simp)
    obtain ⟨bs, hbs, hlen, hpt⟩ := ih (fun x hx => h x (by simp [hx]))
    refine ⟨b :: bs, ?_, by simp [hlen], ?_⟩
    · rw [exceptMapM, hb, hbs]
      rfl
    · intro i hi
      match i with
      | 0 => simpa using hb
      | i + 1 =>
        simp only [List.length_cons, Nat.add_lt_add_iff_right] at hi
        simpa using hpt i hi

/-- **C4 (amended).** When every lookup of `other` at a `self` chunk's
source position succeeds, `self * other` succeeds, has one composed chunk
per `self` chunk, and each composed chunk takes its source side (line
number, line text, column span) from the `other` lookup result and its
target line number and target line text from the `self` chunk — but its
target column span is the `self` chunk's **source** column span, not its
target column span (see the counterexample). -/
theorem fsm_mul_composition (self other : FunctionalSourceMapper)
    (H : ∀ ch ∈ self.chunks, ∃ oc,
      fsmCall other ch.source_line_number ch.source_col_bounds.1 =
        Except.ok (some oc)) :
    ∃ fsm, fsmMul self other = Except.ok fsm ∧
      fsm.chunks.length = self.chunks.length ∧
      ∀ i, i < self.chunks.length →
        ∃ oc, fsmCall other
            ((self.chunks.getD i defaultChunk).source_line_number)
            ((self.chunks.getD i defaultChunk).source_col_bounds.1) =
            Except.ok (some oc) ∧
          fsm.chunks.getD i defaultChunk =
            ⟨oc.source_line_number, oc.source_line, oc.source_col_bounds,
             (self.chunks.getD i defaultChunk).target_line_number,
             (self.chunks.getD i defaultChunk).target_line,
             (self.chunks.getD i defaultChunk).source_col_bounds⟩ := by
  have hstep : ∀ ch ∈ self.chunks, ∃ b,
      (fun schunk => do
        let och ← fsmCall other schunk.source_line_number
          schunk.source_col_bounds.1
        match och with
        | none => throw PyErr.assertionError
        | some ochunk =>
          pure (Chunk.mk ochunk.source_line_number ochunk.source_line
            ochunk.source_col_bounds schunk.target_line_number
            schunk.target_line schunk.source_col_bounds)) ch =
      Except.ok b := by
    intro ch hch
    obtain ⟨oc, hoc⟩ := H ch hch
    refine ⟨⟨oc.source_line_number, oc.source_line, oc.source_col_bounds,
      ch.target_line_number, ch.target_line, ch.source_col_bounds⟩, ?_⟩
    simp only [hoc]
    rfl
  obtain ⟨bs, hbs, hlen, hpt⟩ :=
    exceptMapM_ok_pointwise _ defaultChunk defaultChunk self.chunks hstep
  refine ⟨⟨mkIndexer bs, bs⟩, ?_, by simpa using hlen, ?_⟩
  · rw [fsmMul, hbs]
    simp only [bind, Except.bind]
    exact from_chunks_ok bs
  · intro i hi
    have hmem : self.chunks.getD i defaultChunk ∈ self.chunks := by
      rw [List.getD_eq_getElem _ _ hi]
      exact List.getElem_mem _
    obtain ⟨oc, hoc⟩ := H _ hmem
    refine ⟨oc, hoc, ?_⟩
    have := hpt i hi
    simp only [hoc, bind, Except.bind, pure, Except.pure,
      Except.ok.injEq] at this
    exact this.symm

/-- **C4 counterexample.** The frozen claim says each composed chunk takes
its entire target side — including the target column span — from the
`self` chunk.  Composing `selfFsm` (one chunk with source span `(0, 1)`
and target span `(0, 2)`) with `otherFsm` produces a chunk whose target
column span is `(0, 1)` = the self chunk's *source* span, not `(0, 2)`. -/
theorem composed_target_bounds_not_from_target :
    from_chunks [chSelf] = Except.ok selfFsm ∧
    from_chunks [chOther] = Except.ok otherFsm ∧
    (fsmMul selfFsm otherFsm).map
      (fun fsm => fsm.chunks.map Chunk.target_col_bounds) =
      Except.ok [(0, 1)] ∧
    chSelf.target_col_bounds = (0, 2) := by
  have hcall : fsmCall otherFsm 0 0 = Except.ok (some chOther) := by
    have hb : bisectPairs otherFsm.index (0, 0) = 0 := by
      simp [bisectPairs, bisectLoop, pairLtB, otherFsm]
    simp only [fsmCall, hb]
    rfl
  refine ⟨?_, ?_, ?_, rfl⟩
  · rw [from_chunks_ok]
    rfl
  · rw [from_chunks_ok]
    rfl
  · have hmap : exceptMapM (fun schunk => do
        let och ← fsmCall otherFsm schunk.source_line_number
          schunk.source_col_bounds.1
        match och with
        | none => throw PyErr.assertionError
        | some ochunk =>
          pure (Chunk.mk ochunk.source_line_number ochunk.source_line
            ochunk.source_col_bounds schunk.target_line_number
            schunk.target_line schunk.source_col_bounds)) selfFsm.chunks =
        Except.ok [⟨5, "XY", (0, 2), 0, "ab", (0, 1)⟩] := by
      rw [show selfFsm.chunks = [chSelf] from rfl]
      simp only [exceptMapM]
      rw [show chSelf.source_line_number = 0 from rfl,
        show chSelf.source_col_bounds.1 = 0 from rfl, hcall]
      rfl
    rw [fsmMul, hmap]
    simp only [bind, Except.bind]
    rw [from_chunks_ok]
    rfl

/-- Witness for `fsm_mul_composition` on `selfFsm * otherFsm`. -/
theorem fsm_mul_composition_witness :
    ∃ fsm, fsmMul selfFsm otherFsm = Except.ok fsm ∧
      fsm.chunks.length = selfFsm.chunks.length ∧
      ∀ i, i < selfFsm.chunks.length →
        ∃ oc, fsmCall otherFsm
            ((selfFsm.chunks.getD i defaultChunk).source_line_number)
            ((selfFsm.chunks.getD i defaultChunk).source_col_bounds.1) =
            Except.ok (some oc) ∧
          fsm.chunks.getD i defaultChunk =
            ⟨oc.source_line_number, oc.source_line, oc.source_col_bounds,
             (selfFsm.chunks.getD i defaultChunk).target_line_number,
             (selfFsm.chunks.getD i defaultChunk).target_line,
             (selfFsm.chunks.getD i defaultChunk).source_col_bounds⟩ :=
  fsm_mul_composition selfFsm otherFsm
    (by
      intro ch hch
      have : ch = chSelf := by simpa [selfFsm] using hch
      subst this
      refine ⟨chOther, ?_⟩
      have hb : bisectPairs otherFsm.index (0, 0) = 0 := by
        simp [bisectPairs, bisectLoop, pairLtB, otherFsm]
      rw [show chSelf.source_line_number = 0 from rfl,
        show chSelf.source_col_bounds.1 = 0 from rfl]
      simp only [fsmCall, hb]
      rfl)

/-- **C2 (code bug).** The round trip
`from_json(to_json(from_json(r)))` does not return an entry table equal to
the first decode for every accepted record: for `rNull` (accepted by
`from_json`, whose entry references source `"f"` but has no retained
content), `to_json` emits `sourcesContent = [null]`, and the second
`from_json` crashes with `AttributeError` on `None.splitlines()` instead
of producing any entry table — although the `JSONSourceMap` `TypedDict`
declares `sourcesContent: Optional[List[Optional[str]]]`, i.e. null
entries are legal wire data. -/
theorem fine_roundtrip_crashes_on_absent_content :
    (∃ m, from_json rNull [] none none = Except.ok m) ∧
    ((from_json rNull [] none none).bind to_json).map
      (fun enc => enc.sourcesContent) = Except.ok (some [none]) ∧
    (do
      let m ← from_json rNull [] none none
      let enc ← to_json m
      from_json enc [] none none) = Except.error PyErr.attributeError :=
  ⟨⟨_, rfl⟩, rfl, rfl⟩

/-- **C7 counterexample.** The frozen claim says a fine entry carrying a
source line or source column without a source identifier must be rejected.
But `SourceMapping.__post_init__` only checks the converse directions:
constructing an entry with `source=None` and `source_line=0`,
`source_column=0` succeeds. -/
theorem sourceMapping_partial_triple_accepted :
    mkSourceMapping 0 0 none (some 0) (some 0) none none none none =
      Except.ok ⟨0, 0, none, some 0, some 0, none, none, none, none⟩ ∧
    (⟨0, 0, none, some 0, some 0, none, none, none, none⟩ :
      SourceMapping).source_line ≠ none := by
  constructor
  · rfl
  · simp

/-- **C7 (amended).** `SourceMapping` construction fails with `TypeError`
exactly in the two checked cases — a source without both a source line and
a source column, or a name without a source — and consequently every
constructed entry satisfies: name present implies source present, and
source present implies source line and source column present.  (The
direction claimed by the spec — source line/column implies source — is
not enforced; see the counterexample.) -/
theorem sourceMapping_post_init_invariant :
    (∀ line column source sl sc name se te scont,
      ((source ≠ none ∧ (sl = none ∨ sc = none)) ∨
        (name ≠ none ∧ source = none)) →
      mkSourceMapping line column source sl sc name se te scont =
        Except.error PyErr.typeError) ∧
    (∀ line column source sl sc name se te scont e,
      mkSourceMapping line column source sl sc name se te scont =
        Except.ok e →
      (e.name ≠ none → e.source ≠ none) ∧
      (e.source ≠ none → e.source_line ≠ none ∧ e.source_column ≠ none)) := by
  constructor
  · intro line column source sl sc name se te scont h
    rcases h with ⟨hs, hlc⟩ | ⟨hn, hs⟩
    · rw [mkSourceMapping, if_pos ⟨hs, hlc⟩]
      rfl
    · rw [mkSourceMapping]
      rw [if_neg (by simp [hs])]
      rw [if_pos ⟨hn, hs⟩]
      rfl
  · intro line column source sl sc name se te scont e h
    rw [mkSourceMapping] at h
    by_cases h1 : source ≠ none ∧ (sl = none ∨ sc = none)
    · rw [if_pos h1] at h
      exact absurd h (by simp)
    · rw [if_neg h1] at h
      by_cases h2 : name ≠ none ∧ source = none
      · rw [if_pos h2] at h
        exact absurd h (by simp)
      · rw [if_neg h2] at h
        have he : e = ⟨line, column, source, sl, sc, name, se, te, scont⟩ := by
          have := h
          simp only [pure, Except.pure, Except.ok.injEq] at this
          exact this.symm
        subst he
        push_neg at h1 h2
        constructor
        · intro hn
          exact h2 hn
        · intro hs
          exact h1 hs

/-- Witness for `sourceMapping_post_init_invariant` at concrete entries. -/
theorem sourceMapping_post_init_invariant_witness :
    mkSourceMapping 0 0 (some "f") none none none none none none =
      Except.error PyErr.typeError ∧
    ((⟨0, 0, some "f", some 1, some 2, none, none, none, none⟩ :
        SourceMapping).name ≠ none →
      (⟨0, 0, some "f", some 1, some 2, none, none, none, none⟩ :
        SourceMapping).source ≠ none) ∧
    ((⟨0, 0, some "f", some 1, some 2, none, none, none, none⟩ :
        SourceMapping).source ≠ none →
      (⟨0, 0, some "f", some 1, some 2, none, none, none, none⟩ :
        SourceMapping).source_line ≠ none ∧
      (⟨0, 0, some "f", some 1, some 2, none, none, none, none⟩ :
        SourceMapping).source_column ≠ none) := by
  refine ⟨?_, ?_, ?_⟩
  · exact sourceMapping_post_init_invariant.1 0 0 (some "f") none none none
      none none none (Or.inl (by simp))
  · exact (sourceMapping_post_init_invariant.2 0 0 (some "f") (some 1)
      (some 2) none none none none _ rfl).1
  · exact (sourceMapping_post_init_invariant.2 0 0 (some "f") (some 1)
      (some 2) none none none none _ rfl).2

/-- The per-entry right-bound step is a projection: applying it twice
gives the same result as applying it once. -/
theorem inferRightBoundsEntry_proj (tlens : Option (List Int))
    (index : List (List Int))
    (p : (Int × Int) × (SourceMapping × Option Int)) :
    inferRightBoundsEntry tlens index (inferRightBoundsEntry tlens index p) =
      inferRightBoundsEntry tlens index p := by
  by_cases hlen : (if 0 ≤ p.1.1 then index.getD p.1.1.toNat [] else
      []).length ≤ 1
  · have hX : inferRightBoundsEntry tlens index p = p := by
      simp only [inferRightBoundsEntry.eq_def]
      rw [if_pos hlen]
    rw [hX, hX]
  · cases hn : nextColAfter (if 0 ≤ p.1.1 then index.getD p.1.1.toNat []
        else []) p.1.2 with
    | some c2 =>
      have hX : inferRightBoundsEntry tlens index p =
          (p.1, (p.2.1, some c2)) := by
        simp only [inferRightBoundsEntry.eq_def]
        rw [if_neg hlen, hn]
      rw [hX]
      simp only [inferRightBoundsEntry.eq_def]
      rw [if_neg hlen, hn]
    | none =>
      cases tlens with
      | some lens =>
        have hX : inferRightBoundsEntry (some lens) index p =
            (p.1, (p.2.1, some (lens.getD p.1.1.toNat 0))) := by
          simp only [inferRightBoundsEntry.eq_def]
          rw [if_neg hlen, hn]
        rw [hX]
        simp only [inferRightBoundsEntry.eq_def]
        rw [if_neg hlen, hn]
      | none =>
        have hX : inferRightBoundsEntry none index p = p := by
          simp only [inferRightBoundsEntry.eq_def]
          rw [if_neg hlen, hn]
        rw [hX, hX]

/-- **C6.** (Spec-modelled: the implementation of the right-bound
inference is not under `src/`.)  For every fine map, running the
inference twice produces the same entries as running it once
(unconditional idempotence); and every entry on a generated line with at
most one mapped column is left unchanged by the pass and survives into
its output (the no-op half). -/
theorem infer_right_bounds_idempotent_noop
    (tlens : Option (List Int)) (index : List (List Int))
    (entries : List ((Int × Int) × (SourceMapping × Option Int))) :
    inferRightBounds tlens index (inferRightBounds tlens index entries) =
      inferRightBounds tlens index entries ∧
    ∀ p ∈ entries,
      (if 0 ≤ p.1.1 then index.getD p.1.1.toNat [] else []).length ≤ 1 →
      inferRightBoundsEntry tlens index p = p ∧
      p ∈ inferRightBounds tlens index entries := by
  constructor
  · rw [inferRightBounds, inferRightBounds, List.map_map]
    apply List.map_congr_left
    intro q _
    exact inferRightBoundsEntry_proj tlens index q
  · intro p hp hone
    have hnoop : inferRightBoundsEntry tlens index p = p := by
      simp only [inferRightBoundsEntry.eq_def]
      rw [if_pos hone]
    refine ⟨hnoop, ?_⟩
    rw [inferRightBounds, ← hnoop]
    exact List.mem_map_of_mem _ hp

/-- Witness for `infer_right_bounds_idempotent_noop` on a map with a
one-column line 0 (the no-op case) and a two-column line 1 (a
non-trivially rebounded line covered by the idempotence half). -/
theorem infer_right_bounds_idempotent_noop_witness :
    inferRightBounds none [[0], [0, 5]]
        (inferRightBounds none [[0], [0, 5]]
          [((0, 0), ({ line := 0, column := 0 }, none)),
           ((1, 0), ({ line := 1, column := 0 }, none)),
           ((1, 5), ({ line := 1, column := 5 }, none))]) =
      inferRightBounds none [[0], [0, 5]]
        [((0, 0), ({ line := 0, column := 0 }, none)),
         ((1, 0), ({ line := 1, column := 0 }, none)),
         ((1, 5), ({ line := 1, column := 5 }, none))] ∧
    inferRightBoundsEntry none [[0], [0, 5]]
        ((0, 0), ({ line := 0, column := 0 }, none)) =
      ((0, 0), ({ line := 0, column := 0 }, none)) ∧
    ((0, 0), ({ line := 0, column := 0 }, none)) ∈
      inferRightBounds none [[0], [0, 5]]
        [((0, 0), ({ line := 0, column := 0 }, none)),
         ((1, 0), ({ line := 1, column := 0 }, none)),
         ((1, 5), ({ line := 1, column := 5 }, none))] :=
  ⟨(infer_right_bounds_idempotent_noop none [[0], [0, 5]]
      [((0, 0), ({ line := 0, column := 0 }, none)),
       ((1, 0), ({ line := 1, column := 0 }, none)),
       ((1, 5), ({ line := 1, column := 5 }, none))]).1,
   (infer_right_bounds_idempotent_noop none [[0], [0, 5]]
      [((0, 0), ({ line := 0, column := 0 }, none)),
       ((1, 0), ({ line := 1, column := 0 }, none)),
       ((1, 5), ({ line := 1, column := 5 }, none))]).2
     ((0, 0), ({ line := 0, column := 0 }, none)) (by simp) (by decide)⟩

/-! ## Coarse/fine agreement (C5) -/

/-- **C5 counterexample.** The frozen claim quantifies over *every*
mappings string.  For `"AAAA;AAC;AAAA"`, whose middle group decodes to
the 3-integer segment `[0, 0, 1]`, the coarse decoder advances its line
counter by `decoded[2] = 1`, while the fine decoder skips the segment's
source fields (`len(ref) < 3`) and leaves its source-line counter at 0.
At offset 2 both paths define a value: the coarse line is 1, but the fine
entry's source line is 0. -/
theorem coarse_fine_disagree_on_three_int_segment :
    (sourceMapInit smMix).map SourceMap.pc_to_line =
      Except.ok [(0, 0), (1, 1), (2, 1)] ∧
    (from_json rMix [] none none).map
      (fun m => (dictGet? m.entries (2, 0)).map
        (fun e => e.source_line)) = Except.ok (some (some 0)) ∧
    (1 : Int) ≠ 0 :=
  ⟨rfl, rfl, by decide⟩

theorem dictGet?_insert_self {κ ν : Type} [BEq κ] [LawfulBEq κ]
    (d : List (κ × ν)) (k : κ) (v : ν) :
    dictGet? (dictInsert d k v) k = some v := by
  induction d with
  | nil => simp [dictInsert, dictGet?]
  | cons kv rest ih =>
    rw [dictInsert]
    by_cases h : kv.1 == k
    · rw [if_pos h, dictGet?]
      simp
    · rw [if_neg h, dictGet?, if_neg h]
      exact ih

theorem dictGet?_insert_other {κ ν : Type} [BEq κ] [LawfulBEq κ]
    (d : List (κ × ν)) (k k2 : κ) (v : ν) (hne : k2 ≠ k) :
    dictGet? (dictInsert d k v) k2 = dictGet? d k2 := by
  induction d with
  | nil =>
    simp only [dictInsert, dictGet?]
    rw [if_neg (by simp [beq_iff_eq]; exact fun h => hne h.symm)]
  | cons kv rest ih =>
    rw [dictInsert]
    by_cases h : kv.1 == k
    · rw [if_pos h, dictGet?, dictGet?]
      rw [if_neg (by simp [beq_iff_eq]; exact fun h2 => hne h2.symm),
        if_neg ?_]
      rw [beq_iff_eq] at h
      subst h
      simp [beq_iff_eq]
      exact fun h2 => hne h2.symm
    · rw [if_neg h, dictGet?, dictGet?]
      by_cases h2 : kv.1 == k2
      · rw [if_pos h2, if_pos h2]
      · rw [if_neg h2, if_neg h2]
        exact ih

theorem dictGet?_eq_none {κ ν : Type} [BEq κ] [LawfulBEq κ]
    (d : List (κ × ν)) (k : κ) (h : ∀ kv ∈ d, kv.1 ≠ k) :
    dictGet? d k = none := by
  induction d with
  | nil => rfl
  | cons kv rest ih =>
    rw [dictGet?]
    rw [if_neg (by simp [beq_iff_eq]; exact h kv (by simp))]
    exact ih (fun kv2 hm => h kv2 (by simp [hm]))

theorem dictInsert_mem {κ ν : Type} [BEq κ] [LawfulBEq κ]
    (d : List (κ × ν)) (k : κ) (v : ν) (kv : κ × ν)
    (h : kv ∈ dictInsert d k v) : kv ∈ d ∨ kv = (k, v) := by
  induction d with
  | nil =>
    simp [dictInsert] at h
    exact Or.inr h
  | cons kv2 rest ih =>
    rw [dictInsert] at h
    by_cases hb : kv2.1 == k
    · rw [if_pos hb] at h
      rcases List.mem_cons.mp h with rfl | h2
      · exact Or.inr rfl
      · exact Or.inl (by simp [h2])
    · rw [if_neg hb] at h
      rcases List.mem_cons.mp h with rfl | h2
      · exact Or.inl (by simp)
      · rcases ih h2 with h3 | h3
        · exact Or.inl (by simp [h3])
        · exact Or.inr h3

/-- A separator-free string splits to itself. -/
theorem splitOnChar_no_sep (sep : Char) (l : List Char)
    (h : sep ∉ l) : splitOnChar sep l = [l] := by
  induction l with
  | nil => rfl
  | cons c cs ih =>
    rw [splitOnChar]
    have hc : c ≠ sep := fun hcc => h (by simp [hcc])
    rw [ih (fun hm => h (by simp [hm]))]
    simp [hc]

theorem pySplit_no_sep (s : String) (sep : Char)
    (h : sep ∉ s.toList) : pySplit s sep = [s] := by
  rw [pySplit, splitOnChar_no_sep sep s.toList h]
  simp

/-- Inversion of a successful `exceptMapM` on a cons cell. -/
theorem exceptMapM_cons_ok {α β : Type} (f : α → Except PyErr β)
    (a : α) (as : List α) (bs : List β)
    (h : exceptMapM f (a :: as) = Except.ok bs) :
    ∃ b bs2, f a = Except.ok b ∧ exceptMapM f as = Except.ok bs2 ∧
      bs = b :: bs2 := by
  rw [exceptMapM] at h
  cases hfa : f a with
  | error e =>
    rw [hfa] at h
    simp [bind, Except.bind] at h
  | ok b =>
    rw [hfa] at h
    simp only [bind, Except.bind] at h
    cases hrest : exceptMapM f as with
    | error e =>
      rw [hrest] at h
      simp at h
    | ok bs2 =>
      rw [hrest] at h
      simp only [pure, Except.pure, Except.ok.injEq] at h
      exact ⟨b, bs2, rfl, rfl, h.symm⟩

/-- One step of `coarseLoop`, spelled out. -/
theorem coarseLoop_cons (o : Option Int) (rest : List (Option Int))
    (idx last : Int) (p2l : List (Int × Int))
    (l2p : List (Int × List Int)) :
    coarseLoop (o :: rest) idx last p2l l2p =
      coarseLoop rest (idx + 1)
        (match o with | some d => last + d | none => last)
        (dictInsert p2l idx
          (match o with | some d => last + d | none => last))
        (match dictGet? l2p
            (match o with | some d => last + d | none => last) with
         | none => dictInsert l2p
             (match o with | some d => last + d | none => last) [idx]
         | some pcs => dictInsert l2p
             (match o with | some d => last + d | none => last)
             (pcs ++ [idx])) := rfl

/-- `coarseLoop` does not touch `pc_to_line` keys below the starting
index. -/
theorem coarseLoop_preserve :
    ∀ (pcs : List (Option Int)) (idx last : Int)
      (p2l : List (Int × Int)) (l2p : List (Int × List Int)) (k : Int),
      k < idx →
      dictGet? (coarseLoop pcs idx last p2l l2p).1 k = dictGet? p2l k := by
  intro pcs
  induction pcs with
  | nil =>
    intro idx last p2l l2p k _
    rfl
  | cons o rest ih =>
    intro idx last p2l l2p k hk
    rw [coarseLoop_cons]
    rw [ih (idx + 1) _ _ _ k (by omega)]
    exact dictGet?_insert_other _ _ _ _ (by omega)

/-- The `pc_to_line` entry at offset `idx + j` is the cumulative line
after the first `j + 1` deltas. -/
theorem coarseLoop_lookup :
    ∀ (pcs : List (Option Int)) (idx last : Int)
      (p2l : List (Int × Int)) (l2p : List (Int × List Int)) (j : Nat),
      j < pcs.length →
      dictGet? (coarseLoop pcs idx last p2l l2p).1 (idx + (j : Int)) =
        some (cumLine last (pcs.take (j + 1))) := by
  intro pcs
  induction pcs with
  | nil =>
    intro _ _ _ _ j hj
    simp at hj
  | cons o rest ih =>
    intro idx last p2l l2p j hj
    rw [coarseLoop_cons]
    match j with
    | 0 =>
      rw [coarseLoop_preserve rest (idx + 1) _ _ _ (idx + (0 : Nat))
        (by omega)]
      simp only [Int.natCast_zero, add_zero]
      rw [dictGet?_insert_self]
      rfl
    | j + 1 =>
      have hkey : idx + ((j + 1 : Nat) : Int) = (idx + 1) + (j : Int) := by
        push_cast
        ring
      rw [hkey]
      rw [ih (idx + 1) _ _ _ j (by simpa using hj)]
      rfl

/-- Inversion of a successful `Except` bind. -/
theorem bind_ok_inv {α β : Type} (x : Except PyErr α)
    (f : α → Except PyErr β) (b : β) (h : (x >>= f) = Except.ok b) :
    ∃ a, x = Except.ok a ∧ f a = Except.ok b := by
  cases x with
  | error e => simp [bind, Except.bind] at h
  | ok a =>
    refine ⟨a, rfl, ?_⟩
    simpa [bind, Except.bind] using h

/-- A successfully constructed `SourceMapping` carries exactly the fields
it was given. -/
theorem mkSourceMapping_ok (line column : Int) (source : Option String)
    (sl sc : Option Int) (name : Option String)
    (se te : Option String) (scont : Option (List String))
    (e : SourceMapping)
    (h : mkSourceMapping line column source sl sc name se te scont =
      Except.ok e) :
    e = ⟨line, column, source, sl, sc, name, se, te, scont⟩ := by
  rw [mkSourceMapping] at h
  by_cases h1 : source ≠ none ∧ (sl = none ∨ sc = none)
  · rw [if_pos h1] at h
    exact absurd h (by simp)
  · rw [if_neg h1] at h
    by_cases h2 : name ≠ none ∧ source = none
    · rw [if_pos h2] at h
      exact absurd h (by simp)
    · rw [if_neg h2] at h
      simp only [pure, Except.pure, Except.ok.injEq] at h
      exact h.symm

/-- Processing a segment with at least four decoded integers advances the
source-line counter by `sld` and inserts at `(gline, gcol + gcd)` an entry
whose `source_line` is the new counter value. -/
theorem fineSeg_with_source (names? : Option (List String))
    (source_files : List String) (sp_conts : List (List String))
    (tcont : Option (List String)) (gline : Nat) (gcol : Int)
    (st : FineState) (gcd sd sld scd : Int) (rest4 : List Int)
    (g2 : Int) (st2 : FineState)
    (h : fineSeg names? source_files sp_conts tcont gline gcol st
      (gcd :: sd :: sld :: scd :: rest4) = Except.ok (g2, st2)) :
    g2 = gcol + gcd ∧ st2.sline = st.sline + sld ∧
    ∃ e : SourceMapping, e.source_line = some (st.sline + sld) ∧
      st2.entries =
        dictInsert st.entries ((gline : Int), gcol + gcd) e := by
  rw [fineSeg] at h
  split at h
  · exact Except.noConfusion h
  · rename_i scont hA
    split at h
    · exact Except.noConfusion h
    · rename_i sce hB
      split at h
      · exact Except.noConfusion h
      · rename_i tce hC
        split at h
        · exact Except.noConfusion h
        · rename_i src hD
          split at h
          · exact Except.noConfusion h
          · rename_i npos2 name2 hE
            split at h
            · exact Except.noConfusion h
            · rename_i entry hF
              simp only [pure, Except.pure, Except.ok.injEq,
                Prod.mk.injEq] at h
              obtain ⟨hg2, hst2⟩ := h
              have hent := mkSourceMapping_ok _ _ _ _ _ _ _ _ _ _ hF
              subst hent
              refine ⟨hg2.symm, ?_, ?_⟩
              · rw [← hst2]
              · refine ⟨⟨(gline : Int), gcol + gcd, src,
                  some (st.sline + sld), some (st.scol + scd),
                  name2, sce, tce, scont⟩, rfl, ?_⟩
                rw [← hst2]

/-- Witness for `version_rejected` at version 2. -/
theorem version_rejected_witness :
    sourceMapInit ⟨2, [], "A"⟩ = Except.error (PyErr.versionError 2) ∧
    from_json { version := 2, mappings := "A" } [] none none =
      Except.error PyErr.valueError :=
  version_rejected ⟨2, [], "A"⟩ { version := 2, mappings := "A" } [] none none
    (by decide) (by decide)


/-- A successful `fineSeg` call always returns the advanced column and
inserts exactly one entry, keyed `(gline, new column)`. -/
theorem fineSeg_entries (names? : Option (List String))
    (source_files : List String) (sp_conts : List (List String))
    (tcont : Option (List String)) (gline : Nat) (gcol : Int)
    (st : FineState) (d : List Int) (g2 : Int) (st2 : FineState)
    (h : fineSeg names? source_files sp_conts tcont gline gcol st d =
      Except.ok (g2, st2)) :
    ∃ e, st2.entries =
      dictInsert st.entries ((gline : Int), g2) e := by
  cases d with
  | nil =>
    rw [fineSeg] at h
    exact Except.noConfusion h
  | cons a tl =>
  cases tl with
  | nil =>
    have h3 : ((gcol + a, ⟨st.spos, st.npos, st.sline, st.scol,
        dictInsert st.entries ((gline : Int), gcol + a)
        ⟨(gline : Int), gcol + a, none, none, none, none, none, none,
        none⟩⟩) : Int × FineState) = (g2, st2) :=
      Except.ok.inj h
    rw [Prod.mk.injEq] at h3
    obtain ⟨hg, hst⟩ := h3
    refine ⟨⟨(gline : Int), gcol + a, none, none, none, none, none, none,
      none⟩, ?_⟩
    rw [← hst, ← hg]
  | cons b tl2 =>
  cases tl2 with
  | nil =>
    have h3 : ((gcol + a, ⟨st.spos, st.npos, st.sline, st.scol,
        dictInsert st.entries ((gline : Int), gcol + a)
        ⟨(gline : Int), gcol + a, none, none, none, none, none, none,
        none⟩⟩) : Int × FineState) = (g2, st2) :=
      Except.ok.inj h
    rw [Prod.mk.injEq] at h3
    obtain ⟨hg, hst⟩ := h3
    refine ⟨⟨(gline : Int), gcol + a, none, none, none, none, none, none,
      none⟩, ?_⟩
    rw [← hst, ← hg]
  | cons c tl3 =>
  cases tl3 with
  | nil =>
    have h3 : ((gcol + a, ⟨st.spos, st.npos, st.sline, st.scol,
        dictInsert st.entries ((gline : Int), gcol + a)
        ⟨(gline : Int), gcol + a, none, none, none, none, none, none,
        none⟩⟩) : Int × FineState) = (g2, st2) :=
      Except.ok.inj h
    rw [Prod.mk.injEq] at h3
    obtain ⟨hg, hst⟩ := h3
    refine ⟨⟨(gline : Int), gcol + a, none, none, none, none, none, none,
      none⟩, ?_⟩
    rw [← hst, ← hg]
  | cons d2 r =>
    obtain ⟨hg, -, e, -, hins⟩ := fineSeg_with_source names? source_files
      sp_conts tcont gline gcol st a b c d2 r g2 st2 h
    exact ⟨e, by rw [hins, hg]⟩

/-- The inner segment loop only inserts entries on its own generated
line: lookups at earlier lines are unchanged. -/
theorem fineLineLoop_preserve (names? : Option (List String))
    (source_files : List String) (sp_conts : List (List String))
    (tcont : Option (List String)) (gline : Nat) :
    ∀ (toks : List String) (gcol : Int) (st : FineState) (cols : List Int)
      (st2 : FineState) (cols2 : List Int),
      fineLineLoop names? source_files sp_conts tcont gline toks gcol st
        cols = Except.ok (st2, cols2) →
      ∀ k : Int × Int, k.1 < (gline : Int) →
        dictGet? st2.entries k = dictGet? st.entries k := by
  intro toks
  induction toks with
  | nil =>
    intro gcol st cols st2 cols2 h k _
    have h3 : ((st, cols) : FineState × List Int) = (st2, cols2) :=
      Except.ok.inj h
    rw [Prod.mk.injEq] at h3
    rw [← h3.1]
  | cons tok toks ih =>
    intro gcol st cols st2 cols2 h k hk
    rw [fineLineLoop] at h
    obtain ⟨d, hd, h2⟩ := bind_ok_inv _ _ _ h
    obtain ⟨p, hp, h3⟩ := bind_ok_inv _ _ _ h2
    obtain ⟨g1, st1⟩ := p
    obtain ⟨e, he⟩ := fineSeg_entries _ _ _ _ _ _ _ _ _ _ hp
    have h4 := ih g1 st1 (cols ++ [g1]) st2 cols2 h3 k hk
    rw [h4, he]
    exact dictGet?_insert_other _ _ _ _
      (by intro heq; rw [heq] at hk; simp at hk)

/-- The outer line loop only inserts entries on lines at or above its
starting line: lookups at earlier lines are unchanged. -/
theorem fineLinesLoop_preserve (names? : Option (List String))
    (source_files : List String) (sp_conts : List (List String))
    (tcont : Option (List String)) :
    ∀ (toks : List String) (gline : Nat) (st : FineState)
      (index : List (List Int)) (st2 : FineState)
      (index2 : List (List Int)),
      fineLinesLoop names? source_files sp_conts tcont toks gline st
        index = Except.ok (st2, index2) →
      ∀ k : Int × Int, k.1 < (gline : Int) →
        dictGet? st2.entries k = dictGet? st.entries k := by
  intro toks
  induction toks with
  | nil =>
    intro gline st index st2 index2 h k _
    have h3 : ((st, index) : FineState × List (List Int)) = (st2, index2) :=
      Except.ok.inj h
    rw [Prod.mk.injEq] at h3
    rw [← h3.1]
  | cons vlqs rest ih =>
    intro gline st index st2 index2 h k hk
    rw [fineLinesLoop] at h
    by_cases hv : vlqs = ""
    · rw [if_pos hv] at h
      exact ih (gline + 1) st (index ++ [[]]) st2 index2 h k (by
        push_cast
        omega)
    · rw [if_neg hv] at h
      obtain ⟨p, hline, hrest⟩ := bind_ok_inv _ _ _ h
      obtain ⟨st1, cols1⟩ := p
      have h1 := fineLineLoop_preserve names? source_files sp_conts tcont
        gline (pySplit vlqs (Char.ofNat 44)) 0 st [] st1 cols1 hline k hk
      have h2 := ih (gline + 1) st1 (index ++ [cols1]) st2 index2 hrest k
        (by push_cast; omega)
      rw [h2, h1]

/-- A token decoding to at least four integers has third element `c`, and
the coarse per-group decoder extracts exactly that value. -/
theorem decode_int_value_third (g : String) (a b c d : Int) (r : List Int)
    (h : base64vlq_decode g = Except.ok (a :: b :: c :: d :: r)) :
    _decode_int_value g = Except.ok (some c) := by
  rw [_decode_int_value, h]
  simp [bind, Except.bind]
  rfl

/-- `exceptMapM` preserves length on success. -/
theorem exceptMapM_ok_length {α β : Type} (f : α → Except PyErr β) :
    ∀ (l : List α) (bs : List β), exceptMapM f l = Except.ok bs →
      bs.length = l.length := by
  intro l
  induction l with
  | nil =>
    intro bs h
    have h2 : ([] : List β) = bs := Except.ok.inj h
    rw [← h2]
    rfl
  | cons a as ih =>
    intro bs h
    obtain ⟨b, bs2, _, h2, h3⟩ := exceptMapM_cons_ok f a as bs h
    rw [h3]
    simp [ih bs2 h2]

/-- Main induction for coarse/fine agreement: over a run of nonempty,
comma-free groups each decoding to at least four integers, the fine loop
places on every generated line an entry whose source line is the running
sum of the third decoded integers - exactly the coarse line counter. -/
theorem fineLines_agree (names? : Option (List String))
    (source_files : List String) (sp_conts : List (List String))
    (tcont : Option (List String)) :
    ∀ (toks : List String) (pcs : List (Option Int)) (i0 : Nat)
      (st : FineState) (index : List (List Int)) (stF : FineState)
      (indexF : List (List Int)),
      exceptMapM _decode_int_value toks = Except.ok pcs →
      (∀ tok ∈ toks, tok ≠ "" ∧ (Char.ofNat 44) ∉ tok.toList ∧
        ∃ a b c d r, base64vlq_decode tok = Except.ok (a :: b :: c :: d :: r)) →
      fineLinesLoop names? source_files sp_conts tcont toks i0 st index =
        Except.ok (stF, indexF) →
      ∀ j : Nat, j < toks.length →
        ∃ col e, dictGet? stF.entries (((i0 + j : Nat) : Int), col) =
            some e ∧
          e.source_line = some (cumLine st.sline (pcs.take (j + 1))) := by
  intro toks
  induction toks with
  | nil =>
    intro pcs i0 st index stF indexF _ _ _ j hj
    simp at hj
  | cons tok toks ih =>
    intro pcs i0 st index stF indexF hmap hgood hloop j hj
    obtain ⟨htne, hcomma, a, b, c, d2, r, hdec⟩ := hgood tok (by simp)
    obtain ⟨p0, pcs2, hp0, hmap2, hpcs⟩ :=
      exceptMapM_cons_ok _decode_int_value tok toks pcs hmap
    have hp0c : p0 = some c := by
      rw [decode_int_value_third tok a b c d2 r hdec] at hp0
      exact (Except.ok.inj hp0).symm
    rw [fineLinesLoop, if_neg htne] at hloop
    obtain ⟨q, hline, hrest⟩ := bind_ok_inv _ _ _ hloop
    obtain ⟨st1, cols1⟩ := q
    rw [pySplit_no_sep tok (Char.ofNat 44) hcomma, fineLineLoop] at hline
    obtain ⟨d, hd, h2⟩ := bind_ok_inv _ _ _ hline
    rw [hdec] at hd
    have hdd : (a :: b :: c :: d2 :: r : List Int) = d := Except.ok.inj hd
    rw [← hdd] at h2
    obtain ⟨q2, hseg, htail⟩ := bind_ok_inv _ _ _ h2
    obtain ⟨g2, st2⟩ := q2
    have htail2 : ((st2, [g2]) : FineState × List Int) = (st1, cols1) :=
      Except.ok.inj htail
    rw [Prod.mk.injEq] at htail2
    obtain ⟨hst1, hcols1⟩ := htail2
    obtain ⟨hg2, hsl2, e, hesl, hins⟩ := fineSeg_with_source names?
      source_files sp_conts tcont i0 0 st a b c d2 r g2 st2 hseg
    rw [hpcs, hp0c]
    match j with
    | 0 =>
      refine ⟨g2, e, ?_, ?_⟩
      · rw [fineLinesLoop_preserve names? source_files sp_conts tcont
          toks (i0 + 1) st1 (index ++ [cols1]) stF indexF hrest
          (((i0 + 0 : Nat) : Int), g2) (by push_cast; omega)]
        rw [← hst1, hins, hg2]
        have hkey : (((i0 + 0 : Nat) : Int), (0 : Int) + a) =
            (((i0 : Nat) : Int), (0 : Int) + a) := by push_cast; ring_nf
        rw [hkey]
        exact dictGet?_insert_self _ _ _
      · rw [hesl]
        rfl
    | j + 1 =>
      have hlen : j < toks.length := by simpa using hj
      obtain ⟨col, e2, hget, hsl⟩ := ih pcs2 (i0 + 1) st1
        (index ++ [cols1]) stF indexF hmap2
        (fun t ht => hgood t (by simp [ht])) hrest j hlen
      refine ⟨col, e2, ?_, ?_⟩
      · have hkey : ((i0 + (j + 1) : Nat) : Int) =
            ((i0 + 1 + j : Nat) : Int) := by push_cast; ring
        rw [hkey]
        exact hget
      · rw [hsl, ← hst1, hsl2]
        rfl

/-- **C5 (amended).** When every `;`-group of the mappings string is a
nonempty, comma-free token that VLQ-decodes to at least four integers,
the two decoders agree: for every group offset `j` at which both succeed,
the fine map holds an entry on generated line `j` whose source line
equals the coarse `pc_to_line[j]` value. -/
theorem coarse_fine_source_line_agreement (sm : SourceMapInput)
    (r : JSONSourceMapR) (sources : List String)
    (source_files? : Option (List String)) (target : Option String)
    (m : SourceMap) (fm : MJPSourceMap)
    (hmaps : r.mappings = sm.mappings)
    (hgood : ∀ tok ∈ pySplit sm.mappings (Char.ofNat 59),
      tok ≠ "" ∧ (Char.ofNat 44) ∉ tok.toList ∧
      ∃ a b c d rest,
        base64vlq_decode tok = Except.ok (a :: b :: c :: d :: rest))
    (hc : sourceMapInit sm = Except.ok m)
    (hf : from_json r sources source_files? target = Except.ok fm) :
    ∀ j : Nat, j < (pySplit sm.mappings (Char.ofNat 59)).length →
      ∃ col e, dictGet? fm.entries ((j : Int), col) = some e ∧
        e.source_line = get_line_for_pc m ((j : Int)) := by
  intro j hj
  by_cases hv : sm.version = 3
  · by_cases hv2 : r.version = 3
    · rw [sourceMapInit, if_neg (not_not_intro hv)] at hc
      obtain ⟨u, hu, hc1⟩ := bind_ok_inv _ _ _ hc
      obtain ⟨pcs, hpcs, hc2⟩ := bind_ok_inv _ _ _ hc1
      have hm : (⟨sm.version, sm.sources, sm.mappings,
          (coarseLoop pcs 0 0 [] []).1, (coarseLoop pcs 0 0 [] []).2⟩ :
          SourceMap) = m := Except.ok.inj hc2
      rw [from_json.eq_def, if_neg (not_not_intro hv2), hmaps] at hf
      obtain ⟨u2, hu2, hf1⟩ := bind_ok_inv _ _ _ hf
      obtain ⟨spc, hspc, hf2⟩ := bind_ok_inv _ _ _ hf1
      obtain ⟨q, hloopq, hf3⟩ := bind_ok_inv _ _ _ hf2
      obtain ⟨stF, indexF⟩ := q
      have hfm : (⟨r.file, r.sourceRoot, stF.entries, indexF⟩ :
          MJPSourceMap) = fm := Except.ok.inj hf3
      obtain ⟨col, e, hget, hsl⟩ := fineLines_agree _ _ _ _
        (pySplit sm.mappings (Char.ofNat 59)) pcs 0 ⟨0, 0, 0, 0, []⟩ []
        stF indexF hpcs hgood hloopq j hj
      refine ⟨col, e, ?_, ?_⟩
      · rw [← hfm]
        have hkey : (((0 + j : Nat) : Int), col) = ((j : Int), col) := by
          push_cast
          ring_nf
        rw [← hkey]
        exact hget
      · rw [hsl, get_line_for_pc, ← hm]
        have hlen : j < pcs.length := by
          rw [exceptMapM_ok_length _decode_int_value _ pcs hpcs]
          exact hj
        have hcl := coarseLoop_lookup pcs 0 0 [] [] j hlen
        have hkey2 : ((j : Int)) = (0 : Int) + (j : Int) := by ring
        rw [hkey2, hcl]
    · exfalso
      rw [(by
        unfold from_json
        rw [if_pos hv2]
        rfl : from_json r sources source_files? target =
          Except.error PyErr.valueError)] at hf
      exact Except.noConfusion hf
  · exfalso
    rw [(by
      unfold sourceMapInit
      rw [if_pos hv]
      rfl : sourceMapInit sm =
        Except.error (PyErr.versionError sm.version))] at hc
    exact Except.noConfusion hc



/-- Witness for `coarse_fine_source_line_agreement` on the two-group
mappings string `"AACA;AACA"`, at offset 1. -/
theorem coarse_fine_source_line_agreement_witness :
    ∃ col e,
      dictGet? (⟨none, none,
        [((0, 0), ⟨0, 0, some "unknown", some 1, some 0, none, none, none,
          none⟩),
         ((1, 0), ⟨1, 0, some "unknown", some 2, some 0, none, none, none,
          none⟩)], [[0], [0]]⟩ : MJPSourceMap).entries ((1 : Int), col) =
        some e ∧
      e.source_line = get_line_for_pc
        ⟨3, [], "AACA;AACA", [(0, 1), (1, 2)], [(1, [0]), (2, [1])]⟩
        ((1 : Int)) :=
  coarse_fine_source_line_agreement ⟨3, [], "AACA;AACA"⟩
    { version := 3, mappings := "AACA;AACA" } [] none none
    ⟨3, [], "AACA;AACA", [(0, 1), (1, 2)], [(1, [0]), (2, [1])]⟩
    ⟨none, none,
      [((0, 0), ⟨0, 0, some "unknown", some 1, some 0, none, none, none,
        none⟩),
       ((1, 0), ⟨1, 0, some "unknown", some 2, some 0, none, none, none,
        none⟩)], [[0], [0]]⟩
    rfl
    (by
      intro tok htok
      have hsplit : pySplit "AACA;AACA" (Char.ofNat 59) =
          ["AACA", "AACA"] := rfl
      rw [hsplit] at htok
      simp only [List.mem_cons, List.not_mem_nil, or_false] at htok
      rcases htok with rfl | rfl
      · exact ⟨by decide, by decide, 0, 0, 1, 0, [], rfl⟩
      · exact ⟨by decide, by decide, 0, 0, 1, 0, [], rfl⟩)
    rfl rfl 1 (by decide)
end SourceMapPy
